import Mathlib

/-!
# Verification of the Commit Graph engine

A shallow embedding of `CommitGraph`
(`src/eden/mononoke/repo_attributes/commit_graph/commit_graph/src/lib.rs`)
and of the frontier / lowering primitives it relies on (the `core` and
`frontier` modules and the storage capability are not part of the sources;
those are modelled from the specification, §4.1, §4.2, §4.3, §6.1).

Changeset ids are modelled as naturals (opaque, totally ordered), generation
numbers as naturals, the storage back-end as an association list of edge
records keyed by changeset id, and the asynchronous `Result` as `Except Unit`
(the model's storage itself never fails, so the only errors are the
"missing changeset" errors raised by the `_required` paths).  Streams are
modelled as the lists of the items they yield.  Loops whose termination in
the Rust code depends on storage well-formedness are modelled with an
explicit fuel parameter; each top-level entry point passes a fuel that is
proved sufficient on well-formed graphs.
-/

/-- An opaque changeset identifier (fixed-width byte string in the source,
totally ordered; modelled as `Nat`). -/
abbrev ChangesetId := Nat

/-- A changeset together with its generation number
(`commit_graph_types::edges::ChangesetNode`). -/
structure ChangesetNode where
  cs_id : ChangesetId
  generation : Nat
deriving DecidableEq

/-- The per-changeset edge record stored and fetched atomically
(`commit_graph_types::edges::ChangesetEdges`, restricted to the fields the
spec requires: the node, its parents, and the skip-tree skew ancestor). -/
structure ChangesetEdges where
  node : ChangesetNode
  parents : List ChangesetNode
  skip_tree_skew_ancestor : Option ChangesetNode
deriving DecidableEq

/-- Modelled from the spec: the storage capability (§6.1) is a persisted map
from changeset id to its edge record; we model it as an association list. -/
abbrev Graph := List ChangesetEdges

/-- Modelled from the spec: `Storage.fetch_edges(id) → Option<ChangesetEdges>`
(§6.1); lookup of the edge record by changeset id. -/
def fetchEdges (g : Graph) (cs_id : ChangesetId) : Option ChangesetEdges :=
  g.find? (fun e => e.node.cs_id == cs_id)

/-- The generation number recorded in storage for a changeset
(0 when the changeset is missing; well-formed graphs store only
generations ≥ 1). -/
def genOf (g : Graph) (x : ChangesetId) : Nat :=
  match fetchEdges g x with
  | some e => e.node.generation
  | none => 0

/-- The ids of the parents recorded in storage for a changeset. -/
def parentIds (g : Graph) (x : ChangesetId) : List ChangesetId :=
  match fetchEdges g x with
  | some e => e.parents.map (fun p => p.cs_id)
  | none => []

/-- The changeset is present in storage. -/
def Present (g : Graph) (x : ChangesetId) : Prop :=
  (fetchEdges g x).isSome = true

/-- A `(cs_id, generation)` pair agrees with what storage records for that
id: fetching the id succeeds and returns exactly this node. -/
def Matched (g : Graph) (n : ChangesetNode) : Prop :=
  (fetchEdges g n.cs_id).map (fun e => e.node) = some n

/-- The ancestry relation of the stored DAG, inclusive (a commit is its own
ancestor): `Ancestor g a d` holds when `a` is reachable from `d` through
recorded parent edges. -/
inductive Ancestor (g : Graph) : ChangesetId → ChangesetId → Prop
  | refl (x : ChangesetId) : Ancestor g x x
  | step {a p c : ChangesetId} :
      Ancestor g a p → p ∈ parentIds g c → Ancestor g a c

/-- Well-formedness of the stored graph, the invariants the storage layer
guarantees (§3, §6.1): ids are unique keys, every stored record is the one
its id fetches, parents are present with their recorded generations,
generation = 1 + max of parent generations (1 for a root), and the skip tree
skew ancestor (when present) is a stored node of strictly smaller
generation. -/
def WellFormed (g : Graph) : Prop :=
  (g.map (fun e => e.node.cs_id)).Nodup ∧
  (∀ e ∈ g, fetchEdges g e.node.cs_id = some e) ∧
  (∀ e ∈ g, ∀ p ∈ e.parents, Matched g p) ∧
  (∀ e ∈ g, e.node.generation = (e.parents.map (fun p => p.generation)).foldr max 0 + 1) ∧
  (∀ e ∈ g, ∀ a ∈ e.skip_tree_skew_ancestor.toList,
      Matched g a ∧ a.generation < e.node.generation)

instance (g : Graph) (n : ChangesetNode) : Decidable (Matched g n) := by
  unfold Matched; infer_instance

instance (g : Graph) : Decidable (WellFormed g) := by
  unfold WellFormed; infer_instance

instance (g : Graph) (x : ChangesetId) : Decidable (Present g x) := by
  unfold Present; infer_instance

/-! ## The changeset frontier

Modelled from the spec (§3, §4.1): a `ChangesetFrontier` is a mapping from
generation to a set of changeset ids.  We model it as a duplicate-free list
of `ChangesetNode`s — the bucket keyed by generation `gen` is the sublist of
nodes with that generation, and the ordered operations (`pop_last`,
`pop_first`, `last_key_value`) refer to the maximum/minimum generation among
the nodes. -/

abbrev Frontier := List ChangesetNode

/-- The highest generation present in the frontier (0 when empty); the key
returned by `last_key_value` / `pop_last`. -/
def maxGen (F : Frontier) : Nat :=
  (F.map (fun n => n.generation)).foldr max 0

/-- The lowest generation present in the frontier (0 when empty); the key
returned by `pop_first`. -/
def minGen : Frontier → Nat
  | [] => 0
  | [n] => n.generation
  | n :: m :: t => min n.generation (minGen (m :: t))

/-- The bucket of the highest generation: the set of nodes removed by
`pop_last`. -/
def topBucket (F : Frontier) : Frontier :=
  F.filter (fun n => n.generation == maxGen F)

/-- What remains of the frontier after `pop_last`. -/
def restBucket (F : Frontier) : Frontier :=
  F.filter (fun n => n.generation != maxGen F)

/-- The bucket of the lowest generation: the set of nodes removed by
`pop_first`. -/
def botBucket (F : Frontier) : Frontier :=
  F.filter (fun n => n.generation == minGen F)

/-- What remains of the frontier after `pop_first`. -/
def botRest (F : Frontier) : Frontier :=
  F.filter (fun n => n.generation != minGen F)

/-- Every node of the frontier agrees with storage (`frontier invariants`:
ids appear with the generation storage records for them). -/
def NodesMatch (g : Graph) (F : Frontier) : Prop :=
  ∀ n ∈ F, Matched g n

/-- The set of (inclusive) ancestors of the frontier: the changesets still
reachable by lowering. -/
def AncF (g : Graph) (F : Frontier) (x : ChangesetId) : Prop :=
  ∃ n ∈ F, Ancestor g x n.cs_id

/-! ## Lowering primitives

Modelled from the spec (§4.2): `lower_frontier` repeatedly pops the top
bucket, batch-fetches the popped nodes' edges and re-inserts their parents
keyed by parent generation, until every node has generation ≤ target.
The batch fetch is modelled per node; a node missing from storage
contributes no parents (it cannot occur on well-formed graphs). -/

/-- Insert into the frontier, keyed by generation, the parents recorded for
each node of `ns` (one wave of parent expansion). -/
def expandInto (g : Graph) (ns : List ChangesetNode) (acc : Frontier) : Frontier :=
  ns.foldl (fun acc n =>
    match fetchEdges g n.cs_id with
    | some e => e.parents.foldl (fun a p => a.insert p) acc
    | none => acc) acc

/-- One wave of `lower_frontier`: pop the top bucket and insert the popped
nodes' parents (this is also exactly `lower_frontier_highest_generation`,
§4.2). -/
def lowerStep (g : Graph) (F : Frontier) : Frontier :=
  expandInto g (topBucket F) (restBucket F)

/-- `lower_frontier` with an explicit iteration bound. -/
def lowerFrontierFuel (g : Graph) (target : Nat) : Nat → Frontier → Frontier
  | 0, F => F
  | fuel + 1, F =>
    if maxGen F ≤ target then F
    else lowerFrontierFuel g target fuel (lowerStep g F)

/-- `lower_frontier(F, target)`: the fuel `maxGen F` is sufficient because
the top generation strictly decreases at every wave. -/
def lowerFrontier (g : Graph) (target : Nat) (F : Frontier) : Frontier :=
  lowerFrontierFuel g target (maxGen F) F

/-! ## Safety of the skip-tree fast jump

The fast path of `common_base` lowers both frontiers past intermediate
generations and keeps the result only when the lowered frontiers are
disjoint.  The key fact: if some changeset above the jump target were
reachable from both frontiers, then the first node at or below the target
on its first-parent chain would end up in *both* lowered frontiers, so they
could not be disjoint. -/

/-- Walk the first-parent chain downwards from `n` until the generation is
at most `target` (guarded so that the recursion is structurally decreasing;
on well-formed graphs the guard always holds). -/
def firstBelow (g : Graph) (target : Nat) (n : ChangesetNode) : ChangesetNode :=
  if n.generation ≤ target then n
  else
    match fetchEdges g n.cs_id with
    | some e =>
      match e.parents with
      | p :: _ => if h : p.generation < n.generation then firstBelow g target p else n
      | [] => n
    | none => n
termination_by n.generation
decreasing_by exact h

/-! ## Frontier construction and the public façade -/

/-- Modelled from the spec: `single_frontier(id)` (§4.2) — fetch the id's
edges and return the singleton frontier; error if the id is missing. -/
def singleFrontier (g : Graph) (cs_id : ChangesetId) : Except Unit Frontier :=
  match fetchEdges g cs_id with
  | some e => .ok [e.node]
  | none => .error ()

/-- Modelled from the spec: `frontier(ids)` (§4.2) — fetch edges for all the
ids and assemble a frontier; missing ids are errors (heads are required to
exist). -/
def frontierOf (g : Graph) : List ChangesetId → Except Unit Frontier
  | [] => .ok []
  | h :: t =>
    match fetchEdges g h with
    | some e => (frontierOf g t).map (fun F => F.insert e.node)
    | none => .error ()

namespace CommitGraph

/-- `CommitGraph::changeset_parents` (lib.rs lines 98-111): fetch the edges
and map to the parent ids; a missing changeset yields `Ok(None)`. -/
def changeset_parents (g : Graph) (cs_id : ChangesetId) :
    Except Unit (Option (List ChangesetId)) :=
  .ok ((fetchEdges g cs_id).map (fun e => e.parents.map (fun p => p.cs_id)))

/-- `CommitGraph::changeset_parents_required` (lib.rs lines 114-122):
`changeset_parents`, turning `None` into a missing-changeset error. -/
def changeset_parents_required (g : Graph) (cs_id : ChangesetId) :
    Except Unit (List ChangesetId) := do
  match ← changeset_parents g cs_id with
  | some ps => pure ps
  | none => .error ()

/-- `CommitGraph::changeset_generation` (lib.rs lines 125-132): fetch the
edges and map to the node's generation; a missing changeset yields
`Ok(None)`. -/
def changeset_generation (g : Graph) (cs_id : ChangesetId) :
    Except Unit (Option Nat) :=
  .ok ((fetchEdges g cs_id).map (fun e => e.node.generation))

/-- `CommitGraph::changeset_generation_required` (lib.rs lines 135-143):
`changeset_generation`, turning `None` into a missing-changeset error. -/
def changeset_generation_required (g : Graph) (cs_id : ChangesetId) :
    Except Unit Nat := do
  match ← changeset_generation g cs_id with
  | some gen => pure gen
  | none => .error ()

/-- `CommitGraph::is_ancestor` (lib.rs lines 183-196): build the singleton
frontier of the descendant, lower it to the ancestor's generation, and test
whether the bucket at that generation contains the ancestor. -/
def is_ancestor (g : Graph) (ancestor descendant : ChangesetId) :
    Except Unit Bool := do
  let F ← singleFrontier g descendant
  let target_gen ← changeset_generation_required g ancestor
  let lowered := lowerFrontier g target_gen F
  pure (decide ((⟨ancestor, target_gen⟩ : ChangesetNode) ∈ lowered))

end CommitGraph

/-- A two-changeset example graph: changeset 1 is a root of generation 1,
changeset 2 has parent 1 and generation 2. -/
def exGraph : Graph :=
  [⟨⟨2, 2⟩, [⟨1, 1⟩], none⟩, ⟨⟨1, 1⟩, [], none⟩]

/-! ## `add` -/

/-- Modelled from the spec: `fetch_many_edges_required` (§6.1) applied to a
list of ids — errors as soon as any id is missing (order-preserving batch
fetch). -/
def fetchAllRequiredIds (g : Graph) : List ChangesetId → Except Unit (List ChangesetEdges)
  | [] => .ok []
  | x :: t =>
    match fetchEdges g x with
    | some e => (fetchAllRequiredIds g t).map (fun es => e :: es)
    | none => .error ()

namespace CommitGraph

/-- `CommitGraph::add` (lib.rs lines 62-79): fetch the parents' edges
(required — a missing parent is an error), build the new record, and ask
storage to insert it.  `build_edges` and `Storage::add` are not part of the
sources; they are modelled from the spec: §4.3 (generation = 1 + max of
parent generations, or 1 with no parents; parents resolved to nodes) and
§6.1 (`add` returns false and leaves storage unchanged when the id is
already present).  §4.9 leaves the skew-ancestor construction as an
implementation detail, so the model stores `none`, which trivially satisfies
the required properties. -/
def add (g : Graph) (cs_id : ChangesetId) (parents : List ChangesetId) :
    Except Unit (Bool × Graph) := do
  let parent_edges ← fetchAllRequiredIds g parents
  let node : ChangesetNode :=
    ⟨cs_id, (parent_edges.map (fun e => e.node.generation)).foldr max 0 + 1⟩
  let edges : ChangesetEdges := ⟨node, parent_edges.map (fun e => e.node), none⟩
  match fetchEdges g cs_id with
  | some _ => .ok (false, g)
  | none => .ok (true, edges :: g)

end CommitGraph

/-! ## `slice_ancestors` -/

/-- Modelled from the spec: `Frontier::changesets()` (§4.1) — all ids,
flattened. -/
def changesetsOf (F : Frontier) : List ChangesetId :=
  F.map (fun n => n.cs_id)

/-- Modelled from the spec: `Frontier::changesets_in_range(lo .. hi)`
(§4.1) — the ids of the buckets whose generation lies in `[lo, hi)`.  (The
spec's §4.1 description says the buckets are also drained; that contradicts
the spec's own scenario S4 and the code's doc comment — each slice holds a
*frontier* — so the model reads the range without draining, which is what
S4's driver `slice_ancestors` requires to make progress.) -/
def changesetsInRange (F : Frontier) (lo hi : Nat) : List ChangesetId :=
  (F.filter (fun n => decide (lo ≤ n.generation) && decide (n.generation < hi))).map
    (fun n => n.cs_id)

/-- The loop of `CommitGraph::slice_ancestors` (lib.rs lines 505-533),
producing the slices in decreasing order of start generation: filter the
frontier by `needs_processing`, stop when empty, emit the ids within the
current window, then lower past the window and continue. -/
def sliceLoop (g : Graph) (needs : List ChangesetId → List ChangesetId) (S : Nat) :
    Nat → Nat → Frontier → List (Nat × List ChangesetId)
  | 0, _, _ => []
  | fuel + 1, slice_start, F =>
    let needed := needs (changesetsOf F)
    let F1 := F.filter (fun n => needed.contains n.cs_id)
    if F1 = [] then []
    else
      (slice_start, changesetsInRange F1 slice_start (slice_start + S)) ::
        (if 1 < slice_start then
          sliceLoop g needs S fuel (slice_start - S) (lowerFrontier g (slice_start - 1) F1)
        else [])

namespace CommitGraph

/-- `CommitGraph::slice_ancestors` (lib.rs lines 480-536): build the heads
frontier, start at `((max_gen - 1) / slice_size) * slice_size + 1`, collect
slices downwards and return them reversed (ascending). `needs_processing` is
modelled as a function from the candidate ids to the subset still needing
processing. -/
def slice_ancestors (g : Graph) (heads : List ChangesetId)
    (needs_processing : List ChangesetId → List ChangesetId) (slice_size : Nat) :
    Except Unit (List (Nat × List ChangesetId)) := do
  let F ← frontierOf g heads
  if F = [] then .ok []
  else
    let slice_start := ((maxGen F - 1) / slice_size) * slice_size + 1
    .ok ((sliceLoop g needs_processing slice_size (maxGen F + 1) slice_start F).reverse)

end CommitGraph

/-- The linear chain C1(1) → … → C10(10) of scenario S4 (id `i` has
generation `i` and parent `i - 1`). -/
def chain10 : Graph :=
  [⟨⟨1, 1⟩, [], none⟩, ⟨⟨2, 2⟩, [⟨1, 1⟩], none⟩, ⟨⟨3, 3⟩, [⟨2, 2⟩], none⟩,
   ⟨⟨4, 4⟩, [⟨3, 3⟩], none⟩, ⟨⟨5, 5⟩, [⟨4, 4⟩], none⟩, ⟨⟨6, 6⟩, [⟨5, 5⟩], none⟩,
   ⟨⟨7, 7⟩, [⟨6, 6⟩], none⟩, ⟨⟨8, 8⟩, [⟨7, 7⟩], none⟩, ⟨⟨9, 9⟩, [⟨8, 8⟩], none⟩,
   ⟨⟨10, 10⟩, [⟨9, 9⟩], none⟩]

/-! ## `ancestors_difference` -/

/-- One polling step of `ancestors_difference_stream_with`
(lib.rs lines 228-271): pop the top heads bucket, lower the common frontier
to its generation, keep the ids neither contained in the lowered common
frontier at that generation nor satisfying the monotonic property, emit
them, and insert the kept nodes' parents back into the heads frontier
(`fetch_many_edges` is not `required`: ids missing from storage simply
contribute no parents).  Returns `none` when the heads frontier is
drained. -/
def adsChunk (g : Graph) (P : ChangesetId → Bool) (heads common : Frontier) :
    Option (List ChangesetId × Frontier × Frontier) :=
  if heads = [] then none
  else
    let gen := maxGen heads
    let T := topBucket heads
    let common1 := lowerFrontier g gen common
    let kept := T.filter
      (fun n => !(decide ((⟨n.cs_id, gen⟩ : ChangesetNode) ∈ common1)) && !(P n.cs_id))
    some (kept.map (fun n => n.cs_id), expandInto g kept (restBucket heads), common1)

/-- The stream of `ancestors_difference_stream_with`, collected: concatenate
the chunks until the heads frontier drains. -/
def adsLoop (g : Graph) (P : ChangesetId → Bool) :
    Nat → Frontier → Frontier → List ChangesetId
  | 0, _, _ => []
  | fuel + 1, heads, common =>
    match adsChunk g P heads common with
    | none => []
    | some (chunk, heads1, common1) => chunk ++ adsLoop g P fuel heads1 common1

namespace CommitGraph

/-- `CommitGraph::ancestors_difference_stream_with` (lib.rs lines 198-275),
with the stream collected into the list of ids it yields.  The monotonic
property is modelled as a boolean predicate.  The fuel `maxGen + 1` is
sufficient because the popped generation strictly decreases at every
chunk. -/
def ancestors_difference_stream_with (g : Graph)
    (heads common : List ChangesetId) (P : ChangesetId → Bool) :
    Except Unit (List ChangesetId) := do
  let hF ← frontierOf g heads
  let cF ← frontierOf g common
  .ok (adsLoop g P (maxGen hF + 1) hF cF)

/-- `CommitGraph::ancestors_difference_stream` (lib.rs lines 277-285): the
`P ≡ false` specialization. -/
def ancestors_difference_stream (g : Graph) (heads common : List ChangesetId) :
    Except Unit (List ChangesetId) :=
  ancestors_difference_stream_with g heads common (fun _ => false)

/-- `CommitGraph::ancestors_difference_with` (lib.rs lines 294-309):
collect the stream (already a list in the model). -/
def ancestors_difference_with (g : Graph) (heads common : List ChangesetId)
    (P : ChangesetId → Bool) : Except Unit (List ChangesetId) :=
  ancestors_difference_stream_with g heads common P

/-- `CommitGraph::ancestors_difference` (lib.rs lines 313-323). -/
def ancestors_difference (g : Graph) (heads common : List ChangesetId) :
    Except Unit (List ChangesetId) :=
  ancestors_difference_stream g heads common

end CommitGraph

/-! ## `range_stream`

Two phases (lib.rs lines 325-399): a downward discovery that walks every
bucket from `end` to the bottom, recording reverse (children) edges for
nodes above `start`'s generation and noting whether `start` was seen; then
an upward emission driven purely by the recorded in-memory children map. -/

/-- The in-memory children map built during discovery: entries
`(parent_id, child_node)`. -/
abbrev ChildMap := List (ChangesetId × ChangesetNode)

/-- The recorded children of an id, with their generations. -/
def childrenOf (cm : ChildMap) (x : ChangesetId) : List ChangesetNode :=
  (cm.filter (fun pc => pc.1 == x)).map (fun pc => pc.2)

/-- Insert an entry into the children map (a set: duplicates collapse). -/
def cmInsert (cm : ChildMap) (pc : ChangesetId × ChangesetNode) : ChildMap :=
  if pc ∈ cm then cm else pc :: cm

/-- Modelled from the spec: `fetch_many_edges_required` (§6.1) applied to
the popped bucket — errors as soon as any node's id is missing. -/
def fetchAllRequired (g : Graph) : List ChangesetNode → Except Unit (List ChangesetEdges)
  | [] => .ok []
  | n :: t =>
    match fetchEdges g n.cs_id with
    | some e => (fetchAllRequired g t).map (fun es => e :: es)
    | none => .error ()

/-- The downward discovery loop of `range_stream` (lib.rs lines 339-362):
pop the top bucket, batch-fetch its edges (required), accumulate
`reached_start`, and — only while above `start`'s generation — record a
reverse edge for every parent and re-insert the parents into the frontier.
The source updates the children map and the frontier in one pass over the
fetched edges; the model folds over them once per accumulator. -/
def rangeDiscover (g : Graph) (start_id : ChangesetId) (start_generation : Nat) :
    Nat → Frontier → ChildMap → Bool → Except Unit (ChildMap × Bool)
  | 0, F, cm, reached => if F = [] then .ok (cm, reached) else .error ()
  | fuel + 1, F, cm, reached =>
    if F = [] then .ok (cm, reached)
    else
      match fetchAllRequired g (topBucket F) with
      | .error err => .error err
      | .ok es =>
        let reached1 := reached || (topBucket F).any (fun n => n.cs_id == start_id)
        if start_generation < maxGen F then
          rangeDiscover g start_id start_generation fuel
            (es.foldl (fun acc e =>
              e.parents.foldl (fun a p => a.insert p) acc) (restBucket F))
            (es.foldl (fun acc e =>
              e.parents.foldl (fun a p => cmInsert a (p.cs_id, e.node)) acc) cm)
            reached1
        else
          rangeDiscover g start_id start_generation fuel (restBucket F) cm reached1

/-- The upward emission of `range_stream` (lib.rs lines 373-398): pop the
bottom bucket, re-insert the popped nodes' recorded children (at their
recorded generations), and yield the popped ids.  Note the type: this phase
reads only the in-memory children map — it has no access to the graph. -/
def rangeEmit (cm : ChildMap) : Nat → Frontier → List ChangesetId
  | 0, _ => []
  | fuel + 1, F =>
    if F = [] then []
    else
      (botBucket F).map (fun n => n.cs_id) ++
        rangeEmit cm fuel
          ((botBucket F).foldl (fun acc n =>
            (childrenOf cm n.cs_id).foldl (fun a c => a.insert c) acc) (botRest F))

namespace CommitGraph

/-- `CommitGraph::range_stream` (lib.rs lines 325-399): discovery, the
`reached_start` check, then the purely in-memory upward emission (collected
into the list the stream yields). -/
def range_stream (g : Graph) (start_id end_id : ChangesetId) :
    Except Unit (List ChangesetId) := do
  let start_generation ← changeset_generation_required g start_id
  let F ← singleFrontier g end_id
  let dres ← rangeDiscover g start_id start_generation (maxGen F + 1) F [] false
  if dres.2 then
    .ok (rangeEmit dres.1 (genOf g end_id + 1) [⟨start_id, start_generation⟩])
  else
    .ok []

end CommitGraph

/-- Downward reachability from `root` through nodes strictly above the
start generation: `DescReach g sg root x` holds when a parent-path descends
from `root` to `x` taking steps only at nodes of generation above `sg`.
These are exactly the nodes the discovery phase pops. -/
inductive DescReach (g : Graph) (sg : Nat) (root : ChangesetId) : ChangesetId → Prop
  | refl : DescReach g sg root root
  | step {c p : ChangesetId} :
      DescReach g sg root c → sg < genOf g c → p ∈ parentIds g c →
      DescReach g sg root p

/-- Upward reachability through the recorded children map: the nodes the
emission phase yields starting from `root`. -/
inductive UpReach (cm : ChildMap) (root : ChangesetId) : ChangesetId → Prop
  | refl : UpReach cm root root
  | step {x : ChangesetId} {c : ChangesetNode} :
      UpReach cm root x → (x, c) ∈ cm → UpReach cm root c.cs_id

/-! ## `common_base` -/

/-- Modelled from the spec: `Frontier::highest_generation_intersection`
(§4.1) — the intersection of the two top-generation buckets when both top
generations are equal, otherwise empty. -/
def highestGenIntersection (U V : Frontier) : List ChangesetId :=
  if maxGen U = maxGen V then
    ((topBucket U).filter (fun n => decide (n ∈ topBucket V))).map (fun n => n.cs_id)
  else []

/-- The loop of `CommitGraph::common_base` (lib.rs lines 412-465): if the
u-frontier is empty there are no common ancestors; otherwise lower the
v-frontier to the u-frontier's top generation and return the sorted
highest-generation intersection if non-empty; otherwise try the skip-tree
skew ancestor of one top node — the jump to its generation is kept only if
the two lowered frontiers stay disjoint — falling back to lowering just the
highest generation of the u-frontier.  Fuel exhaustion and a failing
required fetch are the error cases (unreachable on well-formed graphs). -/
def common_base_loop (g : Graph) : Nat → Frontier → Frontier → Except Unit (List ChangesetId)
  | 0, _, _ => .error ()
  | fuel + 1, U, V =>
    if U = [] then .ok []
    else if highestGenIntersection U (lowerFrontier g (maxGen U) V) = [] then
      match (topBucket U).head? with
      | none => .ok []
      | some n =>
        match fetchEdges g n.cs_id with
        | none => .error ()
        | some e =>
          match e.skip_tree_skew_ancestor with
          | some a =>
            if (∀ m ∈ lowerFrontier g a.generation U,
                m ∉ lowerFrontier g a.generation (lowerFrontier g (maxGen U) V)) then
              common_base_loop g fuel (lowerFrontier g a.generation U)
                (lowerFrontier g a.generation (lowerFrontier g (maxGen U) V))
            else
              common_base_loop g fuel (lowerStep g U)
                (lowerFrontier g (maxGen U) V)
          | none =>
            common_base_loop g fuel (lowerStep g U)
              (lowerFrontier g (maxGen U) V)
    else
      .ok ((highestGenIntersection U (lowerFrontier g (maxGen U) V)).insertionSort (· ≤ ·))

namespace CommitGraph

/-- `CommitGraph::common_base` (lib.rs lines 403-466): run the loop from
the two singleton frontiers.  The fuel `maxGen + 1` is sufficient because
the u-frontier's top generation strictly decreases at every iteration. -/
def common_base (g : Graph) (u v : ChangesetId) : Except Unit (List ChangesetId) := do
  let U ← singleFrontier g u
  let V ← singleFrontier g v
  common_base_loop g (maxGen U + 1) U V

end CommitGraph

/-! ## Theorems -/

/-! ## Basic lemmas about lookups and well-formedness -/

theorem fetchEdges_mem {g : Graph} {x : ChangesetId} {e : ChangesetEdges}
    (h : fetchEdges g x = some e) : e ∈ g :=
  List.mem_of_find?_eq_some h

theorem fetchEdges_id {g : Graph} {x : ChangesetId} {e : ChangesetEdges}
    (h : fetchEdges g x = some e) : e.node.cs_id = x := by
  have := List.find?_some h
  simpa using this

theorem genOf_eq {g : Graph} {x : ChangesetId} {e : ChangesetEdges}
    (h : fetchEdges g x = some e) : genOf g x = e.node.generation := by
  simp [genOf, h]

theorem parentIds_eq {g : Graph} {x : ChangesetId} {e : ChangesetEdges}
    (h : fetchEdges g x = some e) : parentIds g x = e.parents.map (fun p => p.cs_id) := by
  simp [parentIds, h]

theorem matched_iff {g : Graph} {n : ChangesetNode} :
    Matched g n ↔ ∃ e, fetchEdges g n.cs_id = some e ∧ e.node = n := by
  unfold Matched
  cases h : fetchEdges g n.cs_id with
  | none => simp
  | some e => simp

theorem matched_genOf {g : Graph} {n : ChangesetNode} (h : Matched g n) :
    genOf g n.cs_id = n.generation := by
  rcases matched_iff.mp h with ⟨e, he, hn⟩
  rw [genOf_eq he, hn]

theorem matched_present {g : Graph} {n : ChangesetNode} (h : Matched g n) :
    Present g n.cs_id := by
  rcases matched_iff.mp h with ⟨e, he, _⟩
  simp [Present, he]

theorem matched_unique {g : Graph} {n m : ChangesetNode}
    (hn : Matched g n) (hm : Matched g m) (h : n.cs_id = m.cs_id) : n = m := by
  rcases matched_iff.mp hn with ⟨e, he, hne⟩
  rcases matched_iff.mp hm with ⟨f, hf, hmf⟩
  rw [h] at he
  rw [he] at hf
  rw [← hne, ← hmf, Option.some.inj hf]

theorem wf_fetch_of_mem {g : Graph} (hg : WellFormed g) {e : ChangesetEdges}
    (he : e ∈ g) : fetchEdges g e.node.cs_id = some e :=
  hg.2.1 e he

theorem wf_parent_matched {g : Graph} (hg : WellFormed g) {e : ChangesetEdges}
    (he : e ∈ g) {p : ChangesetNode} (hp : p ∈ e.parents) : Matched g p :=
  hg.2.2.1 e he p hp

theorem wf_gen_formula {g : Graph} (hg : WellFormed g) {e : ChangesetEdges}
    (he : e ∈ g) :
    e.node.generation = (e.parents.map (fun p => p.generation)).foldr max 0 + 1 :=
  hg.2.2.2.1 e he

theorem wf_skew {g : Graph} (hg : WellFormed g) {e : ChangesetEdges}
    (he : e ∈ g) {a : ChangesetNode} (ha : e.skip_tree_skew_ancestor = some a) :
    Matched g a ∧ a.generation < e.node.generation := by
  refine hg.2.2.2.2 e he a ?_
  simp [ha]

theorem wf_gen_pos {g : Graph} (hg : WellFormed g) {e : ChangesetEdges}
    (he : e ∈ g) : 1 ≤ e.node.generation := by
  rw [wf_gen_formula hg he]; omega

theorem wf_genOf_pos {g : Graph} (hg : WellFormed g) {x : ChangesetId}
    (hx : Present g x) : 1 ≤ genOf g x := by
  rw [Present, Option.isSome_iff_exists] at hx
  rcases hx with ⟨e, he⟩
  rw [genOf_eq he]
  exact wf_gen_pos hg (fetchEdges_mem he)

theorem wf_parent_gen_lt {g : Graph} (hg : WellFormed g) {e : ChangesetEdges}
    (he : e ∈ g) {p : ChangesetNode} (hp : p ∈ e.parents) :
    p.generation < e.node.generation := by
  rw [wf_gen_formula hg he]
  have : p.generation ∈ e.parents.map (fun p => p.generation) :=
    List.mem_map_of_mem _ hp
  have hle : p.generation ≤ (e.parents.map (fun p => p.generation)).foldr max 0 := by
    exact List.le_max_of_le (l := e.parents.map (fun p => p.generation)) this le_rfl
  omega

theorem wf_parentIds_lt {g : Graph} (hg : WellFormed g) {p c : ChangesetId}
    (hp : p ∈ parentIds g c) : genOf g p < genOf g c ∧ Present g p := by
  unfold parentIds at hp
  cases he : fetchEdges g c with
  | none => rw [he] at hp; simp at hp
  | some e =>
    rw [he] at hp
    rcases List.mem_map.mp hp with ⟨pn, hpn, hid⟩
    have hm := wf_parent_matched hg (fetchEdges_mem he) hpn
    constructor
    · rw [genOf_eq he, ← hid, matched_genOf hm]
      exact wf_parent_gen_lt hg (fetchEdges_mem he) hpn
    · rw [← hid]; exact matched_present hm

theorem wf_parents_nonempty {g : Graph} (hg : WellFormed g) {e : ChangesetEdges}
    (he : e ∈ g) (h2 : 2 ≤ e.node.generation) : e.parents ≠ [] := by
  intro hnil
  have := wf_gen_formula hg he
  rw [hnil] at this
  simp at this
  omega

/-! ## Lemmas about the ancestry relation -/

theorem anc_parent {g : Graph} {p c : ChangesetId} (hp : p ∈ parentIds g c) :
    Ancestor g p c :=
  Ancestor.step (Ancestor.refl p) hp

theorem anc_trans {g : Graph} {a b c : ChangesetId}
    (hab : Ancestor g a b) (hbc : Ancestor g b c) : Ancestor g a c := by
  induction hbc with
  | refl => exact hab
  | step _ hp ih => exact Ancestor.step ih hp

theorem anc_gen_le {g : Graph} (hg : WellFormed g) {a d : ChangesetId}
    (h : Ancestor g a d) : genOf g a ≤ genOf g d := by
  induction h with
  | refl => exact le_rfl
  | step _ hp ih => exact le_trans ih (le_of_lt (wf_parentIds_lt hg hp).1)

theorem anc_gen_lt {g : Graph} (hg : WellFormed g) {a d : ChangesetId}
    (h : Ancestor g a d) (hne : a ≠ d) : genOf g a < genOf g d := by
  cases h with
  | refl => exact absurd rfl hne
  | step h hp => exact lt_of_le_of_lt (anc_gen_le hg h) (wf_parentIds_lt hg hp).1

theorem anc_antisymm {g : Graph} (hg : WellFormed g) {a d : ChangesetId}
    (h1 : Ancestor g a d) (h2 : Ancestor g d a) : a = d := by
  by_contra hne
  have := anc_gen_lt hg h1 hne
  have := anc_gen_lt hg h2 (Ne.symm hne)
  omega

theorem anc_eq_of_gen_eq {g : Graph} (hg : WellFormed g) {a d : ChangesetId}
    (h : Ancestor g a d) (hgen : genOf g a = genOf g d) : a = d := by
  by_contra hne
  have := anc_gen_lt hg h hne
  omega

theorem anc_present {g : Graph} (hg : WellFormed g) {a d : ChangesetId}
    (h : Ancestor g a d) (hd : Present g d) : Present g a := by
  induction h with
  | refl => exact hd
  | step _ hp ih => exact ih (wf_parentIds_lt hg hp).2

theorem anc_inv {g : Graph} {a d : ChangesetId} (h : Ancestor g a d) :
    a = d ∨ ∃ p ∈ parentIds g d, Ancestor g a p := by
  cases h with
  | refl => exact Or.inl rfl
  | step h hp => exact Or.inr ⟨_, hp, h⟩

theorem mem_le_maxGen {F : Frontier} {n : ChangesetNode} (h : n ∈ F) :
    n.generation ≤ maxGen F := by
  induction F with
  | nil => simp at h
  | cons m t ih =>
    rcases List.mem_cons.mp h with h | h
    · subst h; simp [maxGen]
    · have := ih h
      simp only [maxGen, List.map_cons, List.foldr_cons] at *
      omega

theorem maxGen_le_iff {F : Frontier} {k : Nat} :
    maxGen F ≤ k ↔ ∀ n ∈ F, n.generation ≤ k := by
  induction F with
  | nil => simp [maxGen]
  | cons m t ih =>
    simp only [maxGen, List.map_cons, List.foldr_cons] at *
    constructor
    · intro h n hn
      rcases List.mem_cons.mp hn with h' | h'
      · subst h'; omega
      · exact ih.mp (by omega) n h'
    · intro h
      have h1 := h m (List.mem_cons_self m t)
      have h2 := ih.mpr (fun n hn => h n (List.mem_cons_of_mem m hn))
      omega

theorem maxGen_cons {m : ChangesetNode} {t : Frontier} :
    maxGen (m :: t) = max m.generation (maxGen t) := by
  simp [maxGen]

theorem exists_maxGen_mem {F : Frontier} (h : F ≠ []) :
    ∃ n ∈ F, n.generation = maxGen F := by
  induction F with
  | nil => exact absurd rfl h
  | cons m t ih =>
    by_cases ht : t = []
    · subst ht
      exact ⟨m, List.mem_cons_self m [], by simp [maxGen]⟩
    · rcases ih ht with ⟨n, hn, hgen⟩
      rw [maxGen_cons]
      by_cases hc : m.generation ≤ maxGen t
      · exact ⟨n, List.mem_cons_of_mem m hn, by rw [hgen, max_eq_right hc]⟩
      · refine ⟨m, List.mem_cons_self m t, ?_⟩
        rw [max_eq_left (le_of_not_le hc)]

theorem mem_topBucket {F : Frontier} {n : ChangesetNode} :
    n ∈ topBucket F ↔ n ∈ F ∧ n.generation = maxGen F := by
  simp [topBucket, List.mem_filter]

theorem mem_restBucket {F : Frontier} {n : ChangesetNode} :
    n ∈ restBucket F ↔ n ∈ F ∧ n.generation ≠ maxGen F := by
  simp [restBucket, List.mem_filter]

theorem topBucket_ne_nil {F : Frontier} (h : F ≠ []) : topBucket F ≠ [] := by
  rcases exists_maxGen_mem h with ⟨n, hn, hgen⟩
  intro hnil
  have : n ∈ topBucket F := mem_topBucket.mpr ⟨hn, hgen⟩
  rw [hnil] at this
  simp at this

theorem maxGen_pos {g : Graph} (hg : WellFormed g) {F : Frontier}
    (hm : NodesMatch g F) (h : F ≠ []) : 1 ≤ maxGen F := by
  rcases exists_maxGen_mem h with ⟨n, hn, hgen⟩
  have hmn := hm n hn
  have := wf_genOf_pos hg (matched_present hmn)
  rw [matched_genOf hmn] at this
  omega

theorem minGen_cons {m : ChangesetNode} {t : Frontier} (ht : t ≠ []) :
    minGen (m :: t) = min m.generation (minGen t) := by
  cases t with
  | nil => exact absurd rfl ht
  | cons y u => rfl

theorem mem_ge_minGen {F : Frontier} {n : ChangesetNode} (h : n ∈ F) :
    minGen F ≤ n.generation := by
  induction F with
  | nil => simp at h
  | cons m t ih =>
    by_cases ht : t = []
    · subst ht
      rcases List.mem_singleton.mp h with rfl
      simp [minGen]
    · rw [minGen_cons ht]
      rcases List.mem_cons.mp h with h' | h'
      · subst h'; exact min_le_left _ _
      · exact le_trans (min_le_right _ _) (ih h')

theorem exists_minGen_mem {F : Frontier} (h : F ≠ []) :
    ∃ n ∈ F, n.generation = minGen F := by
  induction F with
  | nil => exact absurd rfl h
  | cons m t ih =>
    by_cases ht : t = []
    · subst ht
      exact ⟨m, List.mem_cons_self m [], by simp [minGen]⟩
    · rcases ih ht with ⟨n, hn, hgen⟩
      rw [minGen_cons ht]
      by_cases hc : minGen t ≤ m.generation
      · exact ⟨n, List.mem_cons_of_mem m hn, by rw [hgen, min_eq_right hc]⟩
      · refine ⟨m, List.mem_cons_self m t, ?_⟩
        rw [min_eq_left (le_of_not_le hc)]

theorem mem_botBucket {F : Frontier} {n : ChangesetNode} :
    n ∈ botBucket F ↔ n ∈ F ∧ n.generation = minGen F := by
  simp [botBucket, List.mem_filter]

theorem mem_botRest {F : Frontier} {n : ChangesetNode} :
    n ∈ botRest F ↔ n ∈ F ∧ n.generation ≠ minGen F := by
  simp [botRest, List.mem_filter]

theorem mem_foldl_insert {ps : List ChangesetNode} {acc : Frontier}
    {m : ChangesetNode} :
    m ∈ ps.foldl (fun a p => a.insert p) acc ↔ m ∈ acc ∨ m ∈ ps := by
  induction ps generalizing acc with
  | nil => simp
  | cons p t ih =>
    simp only [List.foldl_cons, ih, List.mem_insert_iff, List.mem_cons]
    tauto

theorem nodup_foldl_insert {ps : List ChangesetNode} {acc : Frontier}
    (h : acc.Nodup) : (ps.foldl (fun a p => a.insert p) acc).Nodup := by
  induction ps generalizing acc with
  | nil => exact h
  | cons p t ih => exact ih (List.Nodup.insert h)

theorem mem_expandInto {g : Graph} {ns : List ChangesetNode} {acc : Frontier}
    {m : ChangesetNode} :
    m ∈ expandInto g ns acc ↔
      m ∈ acc ∨ ∃ n ∈ ns, ∃ e, fetchEdges g n.cs_id = some e ∧ m ∈ e.parents := by
  induction ns generalizing acc with
  | nil => simp [expandInto]
  | cons n t ih =>
    unfold expandInto at *
    cases he : fetchEdges g n.cs_id with
    | none =>
      simp only [List.foldl_cons, he, ih]
      constructor
      · rintro (h | ⟨n', hn', hrest⟩)
        · exact Or.inl h
        · exact Or.inr ⟨n', List.mem_cons_of_mem n hn', hrest⟩
      · rintro (h | ⟨n', hn', e', he', hm⟩)
        · exact Or.inl h
        · rcases List.mem_cons.mp hn' with rfl | hn'
          · rw [he] at he'; exact absurd he' (by simp)
          · exact Or.inr ⟨n', hn', e', he', hm⟩
    | some e =>
      simp only [List.foldl_cons, he, ih, mem_foldl_insert]
      constructor
      · rintro ((h | h) | ⟨n', hn', hrest⟩)
        · exact Or.inl h
        · exact Or.inr ⟨n, List.mem_cons_self n t, e, he, h⟩
        · exact Or.inr ⟨n', List.mem_cons_of_mem n hn', hrest⟩
      · rintro (h | ⟨n', hn', e', he', hm⟩)
        · exact Or.inl (Or.inl h)
        · rcases List.mem_cons.mp hn' with rfl | hn'
          · rw [he] at he'
            exact Or.inl (Or.inr (by rw [← Option.some.inj he'] at hm; exact hm))
          · exact Or.inr ⟨n', hn', e', he', hm⟩

theorem nodup_expandInto {g : Graph} {ns : List ChangesetNode} {acc : Frontier}
    (h : acc.Nodup) : (expandInto g ns acc).Nodup := by
  induction ns generalizing acc with
  | nil => exact h
  | cons n t ih =>
    unfold expandInto at *
    cases he : fetchEdges g n.cs_id with
    | none => simpa [he] using ih h
    | some e =>
      simp only [List.foldl_cons, he]
      exact ih (nodup_foldl_insert h)

theorem nodesMatch_expandInto {g : Graph} (hg : WellFormed g)
    {ns : List ChangesetNode} {acc : Frontier} (hacc : NodesMatch g acc) :
    NodesMatch g (expandInto g ns acc) := by
  intro m hm
  rcases mem_expandInto.mp hm with h | ⟨n, _, e, he, hp⟩
  · exact hacc m h
  · exact wf_parent_matched hg (fetchEdges_mem he) hp

theorem mem_lowerStep {g : Graph} {F : Frontier} {m : ChangesetNode} :
    m ∈ lowerStep g F ↔
      (m ∈ F ∧ m.generation ≠ maxGen F) ∨
      ∃ n ∈ F, n.generation = maxGen F ∧
        ∃ e, fetchEdges g n.cs_id = some e ∧ m ∈ e.parents := by
  unfold lowerStep
  rw [mem_expandInto]
  constructor
  · rintro (h | ⟨n, hn, he⟩)
    · exact Or.inl (mem_restBucket.mp h)
    · rcases mem_topBucket.mp hn with ⟨hnF, hgen⟩
      exact Or.inr ⟨n, hnF, hgen, he⟩
  · rintro (h | ⟨n, hnF, hgen, he⟩)
    · exact Or.inl (mem_restBucket.mpr h)
    · exact Or.inr ⟨n, mem_topBucket.mpr ⟨hnF, hgen⟩, he⟩

theorem nodesMatch_lowerStep {g : Graph} (hg : WellFormed g) {F : Frontier}
    (hm : NodesMatch g F) : NodesMatch g (lowerStep g F) :=
  nodesMatch_expandInto hg (fun n hn => hm n (mem_restBucket.mp hn).1)

theorem nodup_lowerStep {g : Graph} {F : Frontier} (h : F.Nodup) :
    (lowerStep g F).Nodup :=
  nodup_expandInto (List.Nodup.filter _ h)

theorem lowerStep_gen_lt {g : Graph} (hg : WellFormed g) {F : Frontier}
    (hm : NodesMatch g F) {m : ChangesetNode} (h : m ∈ lowerStep g F) :
    m.generation < maxGen F := by
  rcases mem_lowerStep.mp h with ⟨hF, hne⟩ | ⟨n, hnF, hgen, e, he, hp⟩
  · exact lt_of_le_of_ne (mem_le_maxGen hF) hne
  · have := wf_parent_gen_lt hg (fetchEdges_mem he) hp
    have hmn := hm n hnF
    rcases matched_iff.mp hmn with ⟨e', he', hn'⟩
    rw [he] at he'
    rw [← Option.some.inj he'] at hn'
    rw [hn'] at this
    omega

theorem lowerStep_maxGen_lt {g : Graph} (hg : WellFormed g) {F : Frontier}
    (hm : NodesMatch g F) (h : F ≠ []) :
    maxGen (lowerStep g F) < maxGen F := by
  have hpos := maxGen_pos hg hm h
  have : maxGen (lowerStep g F) ≤ maxGen F - 1 := by
    rw [maxGen_le_iff]
    intro n hn
    have := lowerStep_gen_lt hg hm hn
    omega
  omega

/-- Ancestor-set preservation over one lowering wave: precisely the popped
top-bucket nodes are lost. -/
theorem ancF_lowerStep {g : Graph} (hg : WellFormed g) {F : Frontier}
    (hm : NodesMatch g F) {x : ChangesetId} :
    AncF g (lowerStep g F) x ↔ AncF g F x ∧ genOf g x < maxGen F := by
  constructor
  · rintro ⟨m, hmF, hanc⟩
    have hgen : m.generation < maxGen F := lowerStep_gen_lt hg hm hmF
    rcases mem_lowerStep.mp hmF with ⟨hF, _⟩ | ⟨n, hnF, hmax, e, he, hp⟩
    · refine ⟨⟨m, hF, hanc⟩, ?_⟩
      have h1 := anc_gen_le hg hanc
      have h2 : genOf g m.cs_id = m.generation := matched_genOf (hm m hF)
      omega
    · have hmn : Matched g m := wf_parent_matched hg (fetchEdges_mem he) hp
      have hpid : m.cs_id ∈ parentIds g n.cs_id := by
        rw [parentIds_eq he]
        exact List.mem_map_of_mem _ hp
      refine ⟨⟨n, hnF, anc_trans hanc (anc_parent hpid)⟩, ?_⟩
      have h1 := anc_gen_le hg hanc
      have h2 : genOf g m.cs_id = m.generation := matched_genOf hmn
      omega
  · rintro ⟨⟨n, hnF, hanc⟩, hlt⟩
    by_cases hmax : n.generation = maxGen F
    · have hne : x ≠ n.cs_id := by
        intro h
        rw [h] at hlt
        rw [matched_genOf (hm n hnF)] at hlt
        omega
      rcases anc_inv hanc with h | ⟨p, hp, hanc'⟩
      · exact absurd h hne
      · unfold parentIds at hp
        rcases matched_iff.mp (hm n hnF) with ⟨e, he, hen⟩
        rw [he] at hp
        rcases List.mem_map.mp hp with ⟨pn, hpn, hid⟩
        refine ⟨pn, ?_, by rw [hid]; exact hanc'⟩
        exact mem_lowerStep.mpr (Or.inr ⟨n, hnF, hmax, e, he, hpn⟩)
    · exact ⟨n, mem_lowerStep.mpr (Or.inl ⟨hnF, hmax⟩), hanc⟩

/-! ## Properties of the full lowering loop -/

theorem lowerFrontierFuel_maxGen_le {g : Graph} (hg : WellFormed g)
    {target fuel : Nat} {F : Frontier} (hm : NodesMatch g F)
    (hfuel : maxGen F ≤ target + fuel) :
    maxGen (lowerFrontierFuel g target fuel F) ≤ target := by
  induction fuel generalizing F with
  | zero => simpa using le_trans hfuel (by omega)
  | succ fuel ih =>
    unfold lowerFrontierFuel
    by_cases h : maxGen F ≤ target
    · rw [if_pos h]; exact h
    · rw [if_neg h]
      by_cases hne : F = []
      · subst hne
        simp [maxGen] at h
      · have hlt := lowerStep_maxGen_lt hg hm hne
        exact ih (nodesMatch_lowerStep hg hm) (by omega)

theorem lowerFrontierFuel_nodesMatch {g : Graph} (hg : WellFormed g)
    {target fuel : Nat} {F : Frontier} (hm : NodesMatch g F) :
    NodesMatch g (lowerFrontierFuel g target fuel F) := by
  induction fuel generalizing F with
  | zero => exact hm
  | succ fuel ih =>
    unfold lowerFrontierFuel
    by_cases h : maxGen F ≤ target
    · rw [if_pos h]; exact hm
    · rw [if_neg h]; exact ih (nodesMatch_lowerStep hg hm)

theorem lowerFrontierFuel_nodup {g : Graph} {target fuel : Nat} {F : Frontier}
    (hd : F.Nodup) : (lowerFrontierFuel g target fuel F).Nodup := by
  induction fuel generalizing F with
  | zero => exact hd
  | succ fuel ih =>
    unfold lowerFrontierFuel
    by_cases h : maxGen F ≤ target
    · rw [if_pos h]; exact hd
    · rw [if_neg h]; exact ih (nodup_lowerStep hd)

/-- A node already at or below the target is never popped by lowering. -/
theorem lowerFrontierFuel_keeps_low {g : Graph} {target fuel : Nat}
    {F : Frontier} {n : ChangesetNode} (hn : n ∈ F)
    (hgen : n.generation ≤ target) :
    n ∈ lowerFrontierFuel g target fuel F := by
  induction fuel generalizing F with
  | zero => exact hn
  | succ fuel ih =>
    unfold lowerFrontierFuel
    by_cases h : maxGen F ≤ target
    · rw [if_pos h]; exact hn
    · rw [if_neg h]
      refine ih (mem_lowerStep.mpr (Or.inl ⟨hn, ?_⟩))
      intro hc
      rw [hc] at hgen
      omega

/-- Ancestor-set characterization of lowering (§4.2): lowering to `target`
preserves exactly the reachable changesets of generation ≤ `target`. -/
theorem ancF_lowerFrontierFuel {g : Graph} (hg : WellFormed g)
    {target fuel : Nat} {F : Frontier} (hm : NodesMatch g F)
    (hfuel : maxGen F ≤ target + fuel) {x : ChangesetId} :
    AncF g (lowerFrontierFuel g target fuel F) x ↔
      AncF g F x ∧ genOf g x ≤ target := by
  induction fuel generalizing F with
  | zero =>
    simp only [lowerFrontierFuel]
    constructor
    · rintro ⟨n, hn, hanc⟩
      refine ⟨⟨n, hn, hanc⟩, ?_⟩
      have h1 := anc_gen_le hg hanc
      have h2 := matched_genOf (hm n hn)
      have h3 := mem_le_maxGen hn
      omega
    · exact fun h => h.1
  | succ fuel ih =>
    unfold lowerFrontierFuel
    by_cases h : maxGen F ≤ target
    · rw [if_pos h]
      constructor
      · rintro ⟨n, hn, hanc⟩
        refine ⟨⟨n, hn, hanc⟩, ?_⟩
        have h1 := anc_gen_le hg hanc
        have h2 := matched_genOf (hm n hn)
        have h3 := mem_le_maxGen hn
        omega
      · exact fun h => h.1
    · rw [if_neg h]
      by_cases hne : F = []
      · subst hne; simp [maxGen] at h
      · have hlt := lowerStep_maxGen_lt hg hm hne
        rw [ih (nodesMatch_lowerStep hg hm) (by omega),
            ancF_lowerStep hg hm]
        constructor
        · rintro ⟨⟨ha, _⟩, hle⟩; exact ⟨ha, hle⟩
        · rintro ⟨ha, hle⟩; exact ⟨⟨ha, by omega⟩, hle⟩

theorem lowerFrontier_maxGen_le {g : Graph} (hg : WellFormed g)
    {target : Nat} {F : Frontier} (hm : NodesMatch g F) :
    maxGen (lowerFrontier g target F) ≤ target :=
  lowerFrontierFuel_maxGen_le hg hm (by omega)

theorem lowerFrontier_nodesMatch {g : Graph} (hg : WellFormed g)
    {target : Nat} {F : Frontier} (hm : NodesMatch g F) :
    NodesMatch g (lowerFrontier g target F) :=
  lowerFrontierFuel_nodesMatch hg hm

theorem lowerFrontier_nodup {g : Graph} {target : Nat} {F : Frontier}
    (hd : F.Nodup) : (lowerFrontier g target F).Nodup :=
  lowerFrontierFuel_nodup hd

theorem lowerFrontier_keeps_low {g : Graph} {target : Nat}
    {F : Frontier} {n : ChangesetNode} (hn : n ∈ F)
    (hgen : n.generation ≤ target) : n ∈ lowerFrontier g target F :=
  lowerFrontierFuel_keeps_low hn hgen

theorem ancF_lowerFrontier {g : Graph} (hg : WellFormed g)
    {target : Nat} {F : Frontier} (hm : NodesMatch g F) {x : ChangesetId} :
    AncF g (lowerFrontier g target F) x ↔ AncF g F x ∧ genOf g x ≤ target :=
  ancF_lowerFrontierFuel hg hm (by omega)

/-- A reachable changeset whose generation is exactly the top generation of
the frontier must be one of the frontier's own top-bucket nodes. -/
theorem ancF_top_mem {g : Graph} (hg : WellFormed g) {F : Frontier}
    (hm : NodesMatch g F) {x : ChangesetId} (hx : AncF g F x)
    (hgen : genOf g x = maxGen F) :
    (⟨x, maxGen F⟩ : ChangesetNode) ∈ F := by
  rcases hx with ⟨n, hn, hanc⟩
  have h1 := anc_gen_le hg hanc
  have h2 := matched_genOf (hm n hn)
  have h3 := mem_le_maxGen hn
  have heq : x = n.cs_id := anc_eq_of_gen_eq hg hanc (by omega)
  have h4 : n.generation = maxGen F := by omega
  rw [heq, ← h4]
  exact hn

/-- Any reachable changeset strictly above the lowering target leaves a
definite representative — the first node at or below the target on its
first-parent chain — inside the lowered frontier. -/
theorem firstBelow_mem_lower {g : Graph} (hg : WellFormed g) {target : Nat}
    (htarget : 1 ≤ target) {fuel : Nat} :
    ∀ {F : Frontier}, NodesMatch g F → maxGen F ≤ target + fuel →
      ∀ {x : ChangesetId}, AncF g F x → target < genOf g x →
        firstBelow g target ⟨x, genOf g x⟩ ∈ lowerFrontierFuel g target fuel F := by
  induction fuel with
  | zero =>
    intro F hm hfuel x hx hgt
    rcases hx with ⟨n, hn, hanc⟩
    have h1 := anc_gen_le hg hanc
    have h2 := matched_genOf (hm n hn)
    have h3 := mem_le_maxGen hn
    omega
  | succ fuel ih =>
    intro F hm hfuel x hx hgt
    unfold lowerFrontierFuel
    by_cases h : maxGen F ≤ target
    · rcases hx with ⟨n, hn, hanc⟩
      have h1 := anc_gen_le hg hanc
      have h2 := matched_genOf (hm n hn)
      have h3 := mem_le_maxGen hn
      omega
    · rw [if_neg h]
      by_cases hne : F = []
      · subst hne
        rcases hx with ⟨n, hn, _⟩
        simp at hn
      · have hstepm := nodesMatch_lowerStep hg hm
        have hlt := lowerStep_maxGen_lt hg hm hne
        by_cases hcase : genOf g x < maxGen F
        · exact ih hstepm (by omega) ((ancF_lowerStep hg hm).mpr ⟨hx, hcase⟩) hgt
        · -- x sits in the top bucket: step to its first parent
          have hgen : genOf g x = maxGen F := by
            rcases hx with ⟨n, hn, hanc⟩
            have h1 := anc_gen_le hg hanc
            have h2 := matched_genOf (hm n hn)
            have h3 := mem_le_maxGen hn
            omega
          have hxF : (⟨x, maxGen F⟩ : ChangesetNode) ∈ F := ancF_top_mem hg hm hx hgen
          have hxpres : Present g x := by
            have := matched_present (hm _ hxF)
            simpa using this
          rcases Option.isSome_iff_exists.mp hxpres with ⟨e, he⟩
          have hmem := fetchEdges_mem he
          have h2gen : 2 ≤ e.node.generation := by
            have := genOf_eq he
            omega
          have hpne : e.parents ≠ [] := wf_parents_nonempty hg hmem h2gen
          rcases hp : e.parents with _ | ⟨p, ps⟩
          · exact absurd hp hpne
          · have hpm : Matched g p := wf_parent_matched hg hmem (by rw [hp]; exact List.mem_cons_self p ps)
            have hplt : p.generation < (⟨x, genOf g x⟩ : ChangesetNode).generation := by
              have := wf_parent_gen_lt hg hmem (p := p) (by rw [hp]; exact List.mem_cons_self p ps)
              have hge := genOf_eq he
              simpa [hge] using this
            have hunf : firstBelow g target ⟨x, genOf g x⟩ = firstBelow g target p := by
              rw [firstBelow]
              rw [if_neg (by simp; omega)]
              simp only [he, hp]
              rw [dif_pos hplt]
            rw [hunf]
            have hpstep : p ∈ lowerStep g F := by
              refine mem_lowerStep.mpr (Or.inr ⟨⟨x, maxGen F⟩, hxF, rfl, e, he, ?_⟩)
              rw [hp]; exact List.mem_cons_self p ps
            by_cases hple : p.generation ≤ target
            · have hfb : firstBelow g target p = p := by
                rw [firstBelow, if_pos hple]
              rw [hfb]
              exact lowerFrontierFuel_keeps_low hpstep hple
            · have hancp : AncF g (lowerStep g F) p.cs_id := ⟨p, hpstep, Ancestor.refl _⟩
              have hgp : genOf g p.cs_id = p.generation := matched_genOf hpm
              have := ih hstepm (by omega) hancp (by omega)
              rw [hgp] at this
              exact this

theorem singleFrontier_ok {g : Graph} {x : ChangesetId} {e : ChangesetEdges}
    (h : fetchEdges g x = some e) : singleFrontier g x = .ok [e.node] := by
  simp [singleFrontier, h]

theorem singleFrontier_nodesMatch {g : Graph} {x : ChangesetId}
    {e : ChangesetEdges} (h : fetchEdges g x = some e) :
    NodesMatch g [e.node] := by
  intro n hn
  rcases List.mem_singleton.mp hn with rfl
  rw [matched_iff]
  exact ⟨e, by rw [fetchEdges_id h]; exact h, rfl⟩

theorem frontierOf_cons_ok {g : Graph} {a : ChangesetId} {t : List ChangesetId}
    {F : Frontier} (h : frontierOf g (a :: t) = .ok F) :
    ∃ e F', fetchEdges g a = some e ∧ frontierOf g t = .ok F' ∧
      F = F'.insert e.node := by
  cases he : fetchEdges g a with
  | none =>
    simp only [frontierOf, he] at h
    exact Except.noConfusion h
  | some e =>
    simp only [frontierOf, he] at h
    cases hF' : frontierOf g t with
    | error err =>
      rw [hF'] at h
      simp only [Except.map] at h
      exact Except.noConfusion h
    | ok F' =>
      rw [hF'] at h
      simp only [Except.map] at h
      exact ⟨e, F', rfl, rfl, (Except.ok.inj h).symm⟩

theorem frontierOf_isOk {g : Graph} {heads : List ChangesetId}
    (h : ∀ x ∈ heads, Present g x) : ∃ F, frontierOf g heads = .ok F := by
  induction heads with
  | nil => exact ⟨[], rfl⟩
  | cons a t ih =>
    have ha := h a (List.mem_cons_self a t)
    rcases Option.isSome_iff_exists.mp ha with ⟨e, he⟩
    rcases ih (fun x hx => h x (List.mem_cons_of_mem a hx)) with ⟨F, hF⟩
    refine ⟨F.insert e.node, ?_⟩
    simp only [frontierOf, he, hF, Except.map]

theorem frontierOf_mem {g : Graph} {heads : List ChangesetId} {F : Frontier}
    (h : frontierOf g heads = .ok F) {n : ChangesetNode} :
    n ∈ F ↔ ∃ x ∈ heads, ∃ e, fetchEdges g x = some e ∧ e.node = n := by
  induction heads generalizing F with
  | nil =>
    simp only [frontierOf] at h
    cases h
    simp
  | cons a t ih =>
    rcases frontierOf_cons_ok h with ⟨e, F', he, hF', rfl⟩
    rw [List.mem_insert_iff, ih hF']
    constructor
    · rintro (rfl | ⟨x, hx, e', he', hn⟩)
      · exact ⟨a, List.mem_cons_self a t, e, he, rfl⟩
      · exact ⟨x, List.mem_cons_of_mem a hx, e', he', hn⟩
    · rintro ⟨x, hx, e', he', hn⟩
      rcases List.mem_cons.mp hx with rfl | hx
      · rw [he] at he'
        exact Or.inl (by rw [← hn, Option.some.inj he'])
      · exact Or.inr ⟨x, hx, e', he', hn⟩

theorem frontierOf_nodup {g : Graph} {heads : List ChangesetId} {F : Frontier}
    (h : frontierOf g heads = .ok F) : F.Nodup := by
  induction heads generalizing F with
  | nil => simp only [frontierOf] at h; cases h; exact List.nodup_nil
  | cons a t ih =>
    rcases frontierOf_cons_ok h with ⟨e, F', _, hF', rfl⟩
    exact List.Nodup.insert (ih hF')

theorem frontierOf_present {g : Graph} {heads : List ChangesetId} {F : Frontier}
    (h : frontierOf g heads = .ok F) : ∀ a ∈ heads, Present g a := by
  induction heads generalizing F with
  | nil => simp
  | cons b t ih =>
    rcases frontierOf_cons_ok h with ⟨e, F', he, hF', rfl⟩
    intro a ha
    rcases List.mem_cons.mp ha with rfl | ha
    · simp [Present, he]
    · exact ih hF' a ha

theorem frontierOf_nodesMatch {g : Graph} {heads : List ChangesetId}
    {F : Frontier} (h : frontierOf g heads = .ok F) : NodesMatch g F := by
  intro n hn
  rcases (frontierOf_mem h).mp hn with ⟨x, _, e, he, hn'⟩
  rw [matched_iff]
  exact ⟨e, by rw [← hn', fetchEdges_id he]; exact he, hn'⟩

theorem frontierOf_ancF {g : Graph} {heads : List ChangesetId} {F : Frontier}
    (h : frontierOf g heads = .ok F) {x : ChangesetId} :
    AncF g F x ↔ ∃ a ∈ heads, Ancestor g x a := by
  constructor
  · rintro ⟨n, hn, hanc⟩
    rcases (frontierOf_mem h).mp hn with ⟨a, ha, e, he, hn'⟩
    refine ⟨a, ha, ?_⟩
    rw [← fetchEdges_id he, hn']
    exact hanc
  · rintro ⟨a, ha, hanc⟩
    rcases Option.isSome_iff_exists.mp (frontierOf_present h a ha) with ⟨e, he⟩
    refine ⟨e.node, (frontierOf_mem h).mpr ⟨a, ha, e, he, rfl⟩, ?_⟩
    rw [fetchEdges_id he]
    exact hanc

/-! ## Correctness of `is_ancestor` -/

theorem is_ancestor_spec {g : Graph} (hg : WellFormed g)
    {a d : ChangesetId} (ha : Present g a) (hd : Present g d) :
    ∃ b, CommitGraph.is_ancestor g a d = .ok b ∧ (b = true ↔ Ancestor g a d) := by
  rcases Option.isSome_iff_exists.mp hd with ⟨ed, hed⟩
  rcases Option.isSome_iff_exists.mp ha with ⟨ea, hea⟩
  have hF : singleFrontier g d = .ok [ed.node] := singleFrontier_ok hed
  have hgen : genOf g a = ea.node.generation := genOf_eq hea
  have hreq : CommitGraph.changeset_generation_required g a = .ok ea.node.generation := by
    unfold CommitGraph.changeset_generation_required CommitGraph.changeset_generation
    rw [hea]
    rfl
  have heq : CommitGraph.is_ancestor g a d =
      .ok (decide ((⟨a, genOf g a⟩ : ChangesetNode) ∈
        lowerFrontier g (genOf g a) [ed.node])) := by
    rw [hgen]
    unfold CommitGraph.is_ancestor
    rw [hF, hreq]
    rfl
  refine ⟨_, heq, ?_⟩
  rw [decide_eq_true_eq]
  have hm : NodesMatch g [ed.node] := singleFrontier_nodesMatch hed
  have hm' : NodesMatch g (lowerFrontier g (genOf g a) [ed.node]) :=
    lowerFrontier_nodesMatch hg hm
  constructor
  · intro hmem
    have hx : AncF g (lowerFrontier g (genOf g a) [ed.node]) a :=
      ⟨_, hmem, Ancestor.refl _⟩
    rcases ((ancF_lowerFrontier hg hm).mp hx).1 with ⟨n, hn, hanc⟩
    rcases List.mem_singleton.mp hn with rfl
    rw [fetchEdges_id hed] at hanc
    exact hanc
  · intro hanc
    have hx : AncF g [ed.node] a :=
      ⟨ed.node, List.mem_singleton.mpr rfl, by rw [fetchEdges_id hed]; exact hanc⟩
    have hx' : AncF g (lowerFrontier g (genOf g a) [ed.node]) a :=
      (ancF_lowerFrontier hg hm).mpr ⟨hx, le_rfl⟩
    have hmax : maxGen (lowerFrontier g (genOf g a) [ed.node]) = genOf g a := by
      have hle := @lowerFrontier_maxGen_le g hg (genOf g a) [ed.node] hm
      rcases hx' with ⟨n, hn, hanc'⟩
      have h1 := anc_gen_le hg hanc'
      have h2 := matched_genOf (hm' n hn)
      have h3 := mem_le_maxGen hn
      omega
    have := ancF_top_mem hg hm' hx' (by omega)
    rw [hmax] at this
    exact this

theorem is_ancestor_true_iff {g : Graph} (hg : WellFormed g)
    {a d : ChangesetId} (ha : Present g a) (hd : Present g d) :
    CommitGraph.is_ancestor g a d = .ok true ↔ Ancestor g a d := by
  rcases is_ancestor_spec hg ha hd with ⟨b, hb, hiff⟩
  rw [hb]
  constructor
  · intro h
    exact hiff.mp (Except.ok.inj h)
  · intro h
    rw [hiff.mpr h]

theorem lowerFrontierFuel_id_of_le {g : Graph} {target fuel : Nat}
    {F : Frontier} (h : maxGen F ≤ target) :
    lowerFrontierFuel g target fuel F = F := by
  cases fuel with
  | zero => rfl
  | succ k => unfold lowerFrontierFuel; rw [if_pos h]

/-- **C6.** For every graph and every changeset `c` present in it,
`is_ancestor(c, c)` returns true: ancestry is reflexive/inclusive
(lib.rs lines 183-196). -/
theorem is_ancestor_self_true (g : Graph) (c : ChangesetId)
    (hc : Present g c) : CommitGraph.is_ancestor g c c = .ok true := by
  rcases Option.isSome_iff_exists.mp hc with ⟨e, he⟩
  have hF := singleFrontier_ok he
  have hreq : CommitGraph.changeset_generation_required g c = .ok e.node.generation := by
    unfold CommitGraph.changeset_generation_required CommitGraph.changeset_generation
    rw [he]
    rfl
  unfold CommitGraph.is_ancestor
  rw [hF, hreq]
  have hmax : maxGen [e.node] = e.node.generation := by simp [maxGen]
  have hlow : lowerFrontier g e.node.generation [e.node] = [e.node] := by
    unfold lowerFrontier
    exact lowerFrontierFuel_id_of_le (le_of_eq hmax)
  have hnode : (⟨c, e.node.generation⟩ : ChangesetNode) = e.node := by
    rw [← fetchEdges_id he]
  show Except.ok (decide ((⟨c, e.node.generation⟩ : ChangesetNode) ∈
    lowerFrontier g e.node.generation [e.node])) = Except.ok true
  rw [hlow, hnode]
  simp

/-- Witness for C6 on the concrete two-changeset graph. -/
theorem is_ancestor_self_true_witness :
    Present exGraph 1 ∧ CommitGraph.is_ancestor exGraph 1 1 = .ok true :=
  ⟨by decide, is_ancestor_self_true exGraph 1 (by decide)⟩

/-- **C9.** For every changeset id not present in storage,
`changeset_parents` and `changeset_generation` return `Ok(None)` rather than
an error (lib.rs lines 98-111 and 125-132); only the `_required` variants
(lines 114-122 and 135-143) turn the `None` into a missing-changeset
error. -/
theorem missing_changeset_lookups_ok_none (g : Graph) (c : ChangesetId)
    (h : fetchEdges g c = none) :
    CommitGraph.changeset_parents g c = .ok none ∧
    CommitGraph.changeset_generation g c = .ok none ∧
    CommitGraph.changeset_parents_required g c = .error () ∧
    CommitGraph.changeset_generation_required g c = .error () := by
  refine ⟨?_, ?_, ?_, ?_⟩
  · unfold CommitGraph.changeset_parents
    rw [h]
    rfl
  · unfold CommitGraph.changeset_generation
    rw [h]
    rfl
  · unfold CommitGraph.changeset_parents_required CommitGraph.changeset_parents
    rw [h]
    rfl
  · unfold CommitGraph.changeset_generation_required CommitGraph.changeset_generation
    rw [h]
    rfl

/-- Witness for C9: changeset 99 is not stored in the example graph. -/
theorem missing_changeset_lookups_ok_none_witness :
    fetchEdges exGraph 99 = none ∧
    (CommitGraph.changeset_parents exGraph 99 = .ok none ∧
     CommitGraph.changeset_generation exGraph 99 = .ok none ∧
     CommitGraph.changeset_parents_required exGraph 99 = .error () ∧
     CommitGraph.changeset_generation_required exGraph 99 = .error ()) :=
  ⟨by decide, missing_changeset_lookups_ok_none exGraph 99 (by decide)⟩

theorem fetchEdges_cons_self {e : ChangesetEdges} {g : Graph} {x : ChangesetId}
    (h : e.node.cs_id = x) : fetchEdges (e :: g) x = some e := by
  unfold fetchEdges
  exact List.find?_cons_of_pos _ (by simp [h])

theorem fetchEdges_cons_ne {e : ChangesetEdges} {g : Graph} {x : ChangesetId}
    (h : e.node.cs_id ≠ x) : fetchEdges (e :: g) x = fetchEdges g x := by
  unfold fetchEdges
  exact List.find?_cons_of_neg _ (by simp [h])

theorem fetchAllRequiredIds_ok {g : Graph} {ps : List ChangesetId}
    (h : ∀ p ∈ ps, Present g p) :
    ∃ es, fetchAllRequiredIds g ps = .ok es ∧
      es.map (fun e => e.node.generation) = ps.map (genOf g) := by
  induction ps with
  | nil => exact ⟨[], rfl, rfl⟩
  | cons p t ih =>
    rcases Option.isSome_iff_exists.mp (h p (List.mem_cons_self p t)) with ⟨e, he⟩
    rcases ih (fun q hq => h q (List.mem_cons_of_mem p hq)) with ⟨es, hes, hgens⟩
    refine ⟨e :: es, ?_, ?_⟩
    · simp only [fetchAllRequiredIds, he, hes, Except.map]
    · simp only [List.map_cons, hgens, genOf_eq he]

theorem fetchAllRequiredIds_congr {g g' : Graph} {ps : List ChangesetId}
    (h : ∀ p ∈ ps, fetchEdges g' p = fetchEdges g p) :
    fetchAllRequiredIds g' ps = fetchAllRequiredIds g ps := by
  induction ps with
  | nil => rfl
  | cons p t ih =>
    unfold fetchAllRequiredIds
    rw [h p (List.mem_cons_self p t),
      ih (fun q hq => h q (List.mem_cons_of_mem p hq))]

theorem add_eq_of_far {g : Graph} {x : ChangesetId} {ps : List ChangesetId}
    {es : List ChangesetEdges} (hfar : fetchAllRequiredIds g ps = .ok es) :
    CommitGraph.add g x ps =
      (match fetchEdges g x with
       | some _ => .ok (false, g)
       | none => .ok (true,
          (⟨⟨x, (es.map (fun e => e.node.generation)).foldr max 0 + 1⟩,
            es.map (fun e => e.node), none⟩ : ChangesetEdges) :: g)) := by
  unfold CommitGraph.add
  rw [hfar]
  rfl

/-- **C5.** For every graph in which all of `X`'s parents exist and `X` does
not, `add(ctx, X, parents)` returns true on the first call and false on any
subsequent call with the same arguments, and in both states the stored
generation of `X` equals 1 plus the maximum generation among its parents
(or 1 when `parents` is empty) (lib.rs lines 62-79, spec §4.3 and
scenario S6). -/
theorem add_idempotent (g : Graph) (x : ChangesetId) (parents : List ChangesetId)
    (hps : ∀ p ∈ parents, Present g p) (hx : fetchEdges g x = none) :
    ∃ g1, CommitGraph.add g x parents = .ok (true, g1) ∧
      CommitGraph.add g1 x parents = .ok (false, g1) ∧
      CommitGraph.changeset_generation g1 x =
        .ok (some ((parents.map (genOf g)).foldr max 0 + 1)) := by
  rcases fetchAllRequiredIds_ok hps with ⟨es, hfar, hgens⟩
  set node : ChangesetNode :=
    ⟨x, (es.map (fun e => e.node.generation)).foldr max 0 + 1⟩ with hnode
  set edges : ChangesetEdges := ⟨node, es.map (fun e => e.node), none⟩ with hedges
  have hxps : x ∉ parents := by
    intro hmem
    have := hps x hmem
    rw [Present, hx] at this
    simp at this
  have hsame : ∀ p ∈ parents, fetchEdges (edges :: g) p = fetchEdges g p := by
    intro p hp
    refine fetchEdges_cons_ne ?_
    show node.cs_id ≠ p
    intro hc
    have hxp : x = p := hc
    exact hxps (hxp ▸ hp)
  have hfetch1 : fetchEdges (edges :: g) x = some edges :=
    fetchEdges_cons_self (by rw [hedges, hnode])
  refine ⟨edges :: g, ?_, ?_, ?_⟩
  · rw [add_eq_of_far hfar, hx]
  · have hfar1 : fetchAllRequiredIds (edges :: g) parents = .ok es := by
      rw [fetchAllRequiredIds_congr hsame]
      exact hfar
    rw [add_eq_of_far hfar1, hfetch1]
  · have hgen1 : edges.node.generation = (parents.map (genOf g)).foldr max 0 + 1 := by
      rw [hedges, hnode]
      rw [hgens]
    unfold CommitGraph.changeset_generation
    rw [hfetch1]
    show Except.ok (some edges.node.generation) = _
    rw [hgen1]

/-- Witness for C5: adding changeset 5 with parent 2 (generation 2) to the
example graph stores generation 3, and the second `add` returns false. -/
theorem add_idempotent_witness :
    ((∀ p ∈ [2], Present exGraph p) ∧ fetchEdges exGraph 5 = none) ∧
    (∃ g1, CommitGraph.add exGraph 5 [2] = .ok (true, g1) ∧
      CommitGraph.add g1 5 [2] = .ok (false, g1) ∧
      CommitGraph.changeset_generation g1 5 =
        .ok (some (([2].map (genOf exGraph)).foldr max 0 + 1))) :=
  ⟨⟨by decide, by decide⟩, add_idempotent exGraph 5 [2] (by decide) (by decide)⟩

theorem slice_ancestors_eq {g : Graph} {heads : List ChangesetId} {F : Frontier}
    (hF : frontierOf g heads = .ok F)
    (needs : List ChangesetId → List ChangesetId) (S : Nat) :
    CommitGraph.slice_ancestors g heads needs S =
      if F = [] then .ok [] else
        .ok ((sliceLoop g needs S (maxGen F + 1)
          (((maxGen F - 1) / S) * S + 1) F).reverse) := by
  unfold CommitGraph.slice_ancestors
  rw [hF]
  rfl

theorem sliceLoop_range {g : Graph} (hg : WellFormed g)
    {needs : List ChangesetId → List ChangesetId} {S : Nat} :
    ∀ {fuel slice_start : Nat} {F : Frontier}, NodesMatch g F →
      ∀ sl ∈ sliceLoop g needs S fuel slice_start F, ∀ x ∈ sl.2,
        sl.1 ≤ genOf g x ∧ genOf g x < sl.1 + S := by
  intro fuel
  induction fuel with
  | zero => intro st F _ sl hsl; simp [sliceLoop] at hsl
  | succ fuel ih =>
    intro st F hm sl hsl
    unfold sliceLoop at hsl
    set F1 := F.filter (fun n => (needs (changesetsOf F)).contains n.cs_id) with hF1
    have hm1 : NodesMatch g F1 := fun n hn => hm n (List.mem_filter.mp hn).1
    by_cases h1 : F1 = []
    · rw [if_pos h1] at hsl
      simp at hsl
    · rw [if_neg h1] at hsl
      rcases List.mem_cons.mp hsl with rfl | htail
      · intro x hx
        rcases List.mem_map.mp hx with ⟨n, hn, hid⟩
        rcases List.mem_filter.mp hn with ⟨hnF1, hcond⟩
        simp only [Bool.and_eq_true, decide_eq_true_eq] at hcond
        have := matched_genOf (hm1 n hnF1)
        rw [← hid, this]
        exact hcond
      · by_cases h2 : 1 < st
        · rw [if_pos h2] at htail
          exact ih (lowerFrontier_nodesMatch hg hm1) sl htail
        · rw [if_neg h2] at htail
          simp at htail

theorem sliceLoop_start_le {g : Graph}
    {needs : List ChangesetId → List ChangesetId} {S : Nat} (hS : 1 ≤ S) :
    ∀ {fuel slice_start : Nat} {F : Frontier},
      ∀ sl ∈ sliceLoop g needs S fuel slice_start F, sl.1 ≤ slice_start := by
  intro fuel
  induction fuel with
  | zero => intro st F sl hsl; simp [sliceLoop] at hsl
  | succ fuel ih =>
    intro st F sl hsl
    unfold sliceLoop at hsl
    set F1 := F.filter (fun n => (needs (changesetsOf F)).contains n.cs_id) with hF1
    by_cases h1 : F1 = []
    · rw [if_pos h1] at hsl; simp at hsl
    · rw [if_neg h1] at hsl
      rcases List.mem_cons.mp hsl with rfl | htail
      · exact le_rfl
      · by_cases h2 : 1 < st
        · rw [if_pos h2] at htail
          have := ih sl htail
          omega
        · rw [if_neg h2] at htail
          simp at htail

theorem sliceLoop_pairwise {g : Graph}
    {needs : List ChangesetId → List ChangesetId} {S : Nat} (hS : 1 ≤ S) :
    ∀ {fuel slice_start : Nat} {F : Frontier},
      (sliceLoop g needs S fuel slice_start F).Pairwise
        (fun a b => b.1 < a.1) := by
  intro fuel
  induction fuel with
  | zero => intro st F; simp [sliceLoop]
  | succ fuel ih =>
    intro st F
    unfold sliceLoop
    set F1 := F.filter (fun n => (needs (changesetsOf F)).contains n.cs_id) with hF1
    by_cases h1 : F1 = []
    · rw [if_pos h1]; simp
    · rw [if_neg h1]
      refine List.Pairwise.cons ?_ ?_
      · intro b hb
        by_cases h2 : 1 < st
        · rw [if_pos h2] at hb
          have := sliceLoop_start_le (g := g) hS b hb
          omega
        · rw [if_neg h2] at hb
          simp at hb
      · by_cases h2 : 1 < st
        · rw [if_pos h2]; exact ih
        · rw [if_neg h2]; simp

/-- **C4, counterexample.** On the linear chain C1(1)…C10(10) with
`slice_size = 3` and the identity `needs_processing`, `slice_ancestors`
does *not* return `[(1,[C1,C2,C3]), (4,[C4,C5,C6]), (7,[C7,C8,C9]),
(10,[C10])]`: each slice holds only the ancestor *frontier* within its
generation window (the code's own doc comment, lib.rs lines 468-479), so
the actual result is `[(1,[C3]), (4,[C6]), (7,[C9]), (10,[C10])]`. -/
theorem slice_ancestors_s4_claim_false :
    CommitGraph.slice_ancestors chain10 [10] (fun l => l) 3 ≠
      .ok [(1, [1, 2, 3]), (4, [4, 5, 6]), (7, [7, 8, 9]), (10, [10])] := by
  intro h
  have hval : CommitGraph.slice_ancestors chain10 [10] (fun l => l) 3 =
      .ok [(1, [3]), (4, [6]), (7, [9]), (10, [10])] := rfl
  rw [hval] at h
  exact absurd (Except.ok.inj h) (by decide)

/-- **C4, amended.** For every well-formed graph, present head set, slice
size S ≥ 1 and `needs_processing` function, every pair `(slice_start, ids)`
returned by `slice_ancestors` satisfies
`slice_start ≤ generation(x) < slice_start + S` for each `x` in `ids`, and
the returned pairs are in strictly ascending order of `slice_start`; for
the linear chain C1(1)…C10(10) with S = 3 and the identity
`needs_processing` the result is `[(1,[C3]), (4,[C6]), (7,[C9]),
(10,[C10])]` — each slice is the ancestor frontier inside its window, not
every ancestor in the window (lib.rs lines 480-536). -/
theorem slice_ancestors_spec (g : Graph) (heads : List ChangesetId)
    (needs : List ChangesetId → List ChangesetId) (S : Nat)
    (hg : WellFormed g) (hS : 1 ≤ S) (hheads : ∀ h ∈ heads, Present g h) :
    (∃ slices, CommitGraph.slice_ancestors g heads needs S = .ok slices ∧
      (∀ sl ∈ slices, ∀ x ∈ sl.2, sl.1 ≤ genOf g x ∧ genOf g x < sl.1 + S) ∧
      slices.Pairwise (fun a b => a.1 < b.1)) ∧
    CommitGraph.slice_ancestors chain10 [10] (fun l => l) 3 =
      .ok [(1, [3]), (4, [6]), (7, [9]), (10, [10])] := by
  constructor
  · rcases frontierOf_isOk hheads with ⟨F, hF⟩
    rw [slice_ancestors_eq hF needs S]
    by_cases hFe : F = []
    · rw [if_pos hFe]
      exact ⟨[], rfl, by simp, by simp⟩
    · rw [if_neg hFe]
      refine ⟨_, rfl, ?_, ?_⟩
      · intro sl hsl x hx
        rw [List.mem_reverse] at hsl
        exact sliceLoop_range hg (frontierOf_nodesMatch hF) sl hsl x hx
      · rw [List.pairwise_reverse]
        exact sliceLoop_pairwise hS
  · rfl

/-- Witness for the amended C4 on the S4 chain itself. -/
theorem slice_ancestors_spec_witness :
    (WellFormed chain10 ∧ 1 ≤ 3 ∧ (∀ h ∈ [10], Present chain10 h)) ∧
    ((∃ slices, CommitGraph.slice_ancestors chain10 [10] (fun l => l) 3 = .ok slices ∧
      (∀ sl ∈ slices, ∀ x ∈ sl.2, sl.1 ≤ genOf chain10 x ∧ genOf chain10 x < sl.1 + 3) ∧
      slices.Pairwise (fun a b => a.1 < b.1)) ∧
    CommitGraph.slice_ancestors chain10 [10] (fun l => l) 3 =
      .ok [(1, [3]), (4, [6]), (7, [9]), (10, [10])]) :=
  ⟨⟨by decide, by decide, by decide⟩,
    slice_ancestors_spec chain10 [10] (fun l => l) 3 (by decide) (by decide) (by decide)⟩

theorem nodup_map_cs_id {g : Graph} {F : Frontier} (hm : NodesMatch g F)
    (hd : F.Nodup) : (F.map (fun n => n.cs_id)).Nodup := by
  refine List.Nodup.map_on ?_ hd
  intro x hx y hy hxy
  exact matched_unique (hm x hx) (hm y hy) hxy

theorem ads_heads1_gen_lt {g : Graph} (hg : WellFormed g) {heads : Frontier}
    (hm : NodesMatch g heads) {kept : Frontier}
    (hk : ∀ n ∈ kept, n ∈ heads ∧ n.generation = maxGen heads) :
    ∀ m ∈ expandInto g kept (restBucket heads),
      m.generation < maxGen heads := by
  intro m hmem
  rcases mem_expandInto.mp hmem with h | ⟨n, hn, e, he, hp⟩
  · rcases mem_restBucket.mp h with ⟨hmF, hne⟩
    have := mem_le_maxGen hmF
    omega
  · rcases hk n hn with ⟨hnF, hgen⟩
    have hlt := wf_parent_gen_lt hg (fetchEdges_mem he) hp
    rcases matched_iff.mp (hm n hnF) with ⟨e', he', hn'⟩
    rw [he] at he'
    rw [← Option.some.inj he'] at hn'
    rw [hn', hgen] at hlt
    exact hlt

/-- Combined invariant of the difference stream: no id is emitted twice,
emission is non-increasing in generation, and everything emitted lies at or
below the initial top generation. -/
theorem adsLoop_props {g : Graph} (hg : WellFormed g) {P : ChangesetId → Bool} :
    ∀ {fuel : Nat} {heads common : Frontier}, NodesMatch g heads →
      heads.Nodup → NodesMatch g common → maxGen heads < fuel →
      (adsLoop g P fuel heads common).Nodup ∧
      (adsLoop g P fuel heads common).Pairwise
        (fun a b => genOf g b ≤ genOf g a) ∧
      (∀ x ∈ adsLoop g P fuel heads common, genOf g x ≤ maxGen heads) := by
  intro fuel
  induction fuel with
  | zero => intro heads common _ _ _ hf; omega
  | succ fuel ih =>
    intro heads common hm hd hmc hf
    by_cases hne : heads = []
    · subst hne
      simp [adsLoop, adsChunk]
    · set common1 := lowerFrontier g (maxGen heads) common with hcommon1
      set kept := (topBucket heads).filter
        (fun n => !(decide ((⟨n.cs_id, maxGen heads⟩ : ChangesetNode) ∈ common1)) &&
          !(P n.cs_id)) with hkept
      have hstep : adsLoop g P (fuel + 1) heads common =
          kept.map (fun n => n.cs_id) ++
            adsLoop g P fuel (expandInto g kept (restBucket heads)) common1 := by
        show (match adsChunk g P heads common with
          | none => []
          | some (chunk, heads1, common1) =>
            chunk ++ adsLoop g P fuel heads1 common1) = _
        rw [adsChunk, if_neg hne]
      rw [hstep]
      have hkin : ∀ n ∈ kept, n ∈ heads ∧ n.generation = maxGen heads := by
        intro n hn
        exact mem_topBucket.mp (List.mem_filter.mp hn).1
      have hkm : NodesMatch g kept := fun n hn => hm n (hkin n hn).1
      have hkd : kept.Nodup := List.Nodup.filter _ (List.Nodup.filter _ hd)
      have hgen_lt := ads_heads1_gen_lt hg hm hkin
      set heads1 := expandInto g kept (restBucket heads) with hheads1
      have hm1 : NodesMatch g heads1 :=
        nodesMatch_expandInto hg (fun n hn => hm n (mem_restBucket.mp hn).1)
      have hd1 : heads1.Nodup := nodup_expandInto (List.Nodup.filter _ hd)
      have hmax1 : maxGen heads1 < maxGen heads := by
        have hpos := maxGen_pos hg hm hne
        have : maxGen heads1 ≤ maxGen heads - 1 := by
          rw [maxGen_le_iff]
          intro n hn
          have := hgen_lt n hn
          omega
        omega
      have hmc1 : NodesMatch g common1 :=
        lowerFrontier_nodesMatch hg hmc
      rcases ih hm1 hd1 hmc1 (by omega) with ⟨ihd, ihp, ihb⟩
      have hchunk_gen : ∀ x ∈ kept.map (fun n => n.cs_id),
          genOf g x = maxGen heads := by
        intro x hx
        rcases List.mem_map.mp hx with ⟨n, hn, rfl⟩
        rw [matched_genOf (hkm n hn)]
        exact (hkin n hn).2
      have htail_lt : ∀ x ∈ adsLoop g P fuel heads1
          common1, genOf g x < maxGen heads := by
        intro x hx
        have := ihb x hx
        omega
      refine ⟨?_, ?_, ?_⟩
      · rw [List.nodup_append]
        refine ⟨nodup_map_cs_id hkm hkd, ihd, ?_⟩
        intro x hx hy
        have h1 := hchunk_gen x hx
        have h2 := htail_lt x hy
        omega
      · rw [List.pairwise_append]
        refine ⟨?_, ihp, ?_⟩
        · refine List.pairwise_of_forall_mem_list ?_
          intro a ha b hb
          rw [hchunk_gen a ha, hchunk_gen b hb]
        · intro a ha b hb
          have h1 := hchunk_gen a ha
          have h2 := htail_lt b hb
          omega
      · intro x hx
        rcases List.mem_append.mp hx with hx | hx
        · exact le_of_eq (hchunk_gen x hx)
        · exact le_of_lt (htail_lt x hx)

/-- **C3.** For every well-formed graph and every heads/common/P input with
all heads and common changesets present, the stream produced by
`ancestors_difference_stream_with` (lib.rs lines 198-275) emits each
ChangesetId at most once, and the emitted ids appear in descending order of
their generation numbers (ids within one generation may come in any
order). -/
theorem ads_stream_with_unique_desc (g : Graph) (heads common : List ChangesetId)
    (P : ChangesetId → Bool) (hg : WellFormed g)
    (hh : ∀ x ∈ heads, Present g x) (hc : ∀ x ∈ common, Present g x) :
    ∃ l, CommitGraph.ancestors_difference_stream_with g heads common P = .ok l ∧
      l.Nodup ∧ l.Pairwise (fun a b => genOf g b ≤ genOf g a) := by
  rcases frontierOf_isOk hh with ⟨hF, hhF⟩
  rcases frontierOf_isOk hc with ⟨cF, hcF⟩
  have heq : CommitGraph.ancestors_difference_stream_with g heads common P =
      .ok (adsLoop g P (maxGen hF + 1) hF cF) := by
    unfold CommitGraph.ancestors_difference_stream_with
    rw [hhF, hcF]
    rfl
  have hfuel : maxGen hF < maxGen hF + 1 := by omega
  rcases adsLoop_props hg (frontierOf_nodesMatch hhF) (frontierOf_nodup hhF)
    (frontierOf_nodesMatch hcF) hfuel with ⟨h1, h2, _⟩
  exact ⟨_, heq, h1, h2⟩

/-- Witness for C3 on the two-changeset example graph. -/
theorem ads_stream_with_unique_desc_witness :
    (WellFormed exGraph ∧ (∀ x ∈ [2], Present exGraph x) ∧
      (∀ x ∈ [1], Present exGraph x)) ∧
    (∃ l, CommitGraph.ancestors_difference_stream_with exGraph [2] [1]
        (fun _ => false) = .ok l ∧
      l.Nodup ∧ l.Pairwise (fun a b => genOf exGraph b ≤ genOf exGraph a)) :=
  ⟨⟨by decide, by decide, by decide⟩,
    ads_stream_with_unique_desc exGraph [2] [1] (fun _ => false)
      (by decide) (by decide) (by decide)⟩

/-- If every heads node is already in the common frontier, the difference
stream emits nothing: each popped node is found in the lowered common
frontier at its own generation and filtered out, and no parents are ever
fetched. -/
theorem adsLoop_sub_empty {g : Graph} :
    ∀ {fuel : Nat} {heads common : Frontier}, (∀ n ∈ heads, n ∈ common) →
      adsLoop g (fun _ => false) fuel heads common = [] := by
  intro fuel
  induction fuel with
  | zero => intro heads common _; rfl
  | succ fuel ih =>
    intro heads common hsub
    by_cases hne : heads = []
    · subst hne
      simp [adsLoop, adsChunk]
    · set common1 := lowerFrontier g (maxGen heads) common with hcommon1
      set kept := (topBucket heads).filter
        (fun n => !(decide ((⟨n.cs_id, maxGen heads⟩ : ChangesetNode) ∈ common1)) &&
          !((fun _ => false) n.cs_id)) with hkept
      have hstep : adsLoop g (fun _ => false) (fuel + 1) heads common =
          kept.map (fun n => n.cs_id) ++
            adsLoop g (fun _ => false) fuel
              (expandInto g kept (restBucket heads)) common1 := by
        show (match adsChunk g (fun _ => false) heads common with
          | none => []
          | some (chunk, heads1, common1) =>
            chunk ++ adsLoop g (fun _ => false) fuel heads1 common1) = _
        rw [adsChunk, if_neg hne]
      have hkeptnil : kept = [] := by
        rw [hkept, List.filter_eq_nil_iff]
        intro n hn
        rcases mem_topBucket.mp hn with ⟨hnF, hgen⟩
        have hnode : (⟨n.cs_id, maxGen heads⟩ : ChangesetNode) = n := by
          rw [← hgen]
        have hmem : (⟨n.cs_id, maxGen heads⟩ : ChangesetNode) ∈ common1 := by
          rw [hnode]
          exact lowerFrontier_keeps_low (hsub n hnF) (le_of_eq hgen)
        simp [hmem]
      rw [hstep, hkeptnil]
      have hrest : ∀ n ∈ expandInto g ([] : Frontier) (restBucket heads),
          n ∈ common1 := by
        intro n hn
        have hn' : n ∈ restBucket heads := hn
        rcases mem_restBucket.mp hn' with ⟨hnF, _⟩
        exact lowerFrontier_keeps_low (hsub n hnF) (mem_le_maxGen hnF)
      rw [ih hrest]
      rfl

/-- **C7.** For every graph and every present changeset `h`,
`ancestors_difference([h], [h])` returns the empty vector
(lib.rs lines 313-323); no well-formedness assumption is needed. -/
theorem ancestors_difference_self_empty (g : Graph) (h : ChangesetId)
    (hp : Present g h) :
    CommitGraph.ancestors_difference g [h] [h] = .ok [] := by
  have hpres : ∀ x ∈ [h], Present g x := by
    intro x hx
    rcases List.mem_singleton.mp hx with rfl
    exact hp
  rcases frontierOf_isOk hpres with ⟨F, hF⟩
  have heq : CommitGraph.ancestors_difference g [h] [h] =
      .ok (adsLoop g (fun _ => false) (maxGen F + 1) F F) := by
    unfold CommitGraph.ancestors_difference CommitGraph.ancestors_difference_stream
      CommitGraph.ancestors_difference_stream_with
    rw [hF]
    rfl
  rw [heq, adsLoop_sub_empty (fun n hn => hn)]

/-- Witness for C7. -/
theorem ancestors_difference_self_empty_witness :
    Present exGraph 2 ∧
      CommitGraph.ancestors_difference exGraph [2] [2] = .ok [] :=
  ⟨by decide, ancestors_difference_self_empty exGraph 2 (by decide)⟩

theorem descReach_trans {g : Graph} {sg : Nat} {r m x : ChangesetId}
    (h1 : DescReach g sg r m) (h2 : DescReach g sg m x) : DescReach g sg r x := by
  induction h2 with
  | refl => exact h1
  | step _ hgen hp ih => exact DescReach.step ih hgen hp

theorem descReach_anc {g : Graph} {sg : Nat} {r x : ChangesetId}
    (h : DescReach g sg r x) : Ancestor g x r := by
  induction h with
  | refl => exact Ancestor.refl _
  | step _ _ hp ih => exact anc_trans (anc_parent hp) ih

theorem descReach_of_anc {g : Graph} (hg : WellFormed g) {sg : Nat}
    {c d : ChangesetId} (h : Ancestor g c d) :
    sg ≤ genOf g c → DescReach g sg d c := by
  induction h with
  | refl => exact fun _ => DescReach.refl
  | step hanc hp ih =>
    intro hc
    have h1 := anc_gen_le hg hanc
    have h2 := (wf_parentIds_lt hg hp).1
    exact descReach_trans (DescReach.step DescReach.refl (by omega) hp) (ih hc)

theorem descReach_trivial {g : Graph} (hg : WellFormed g) {sg : Nat}
    {r x : ChangesetId} (h : DescReach g sg r x) (hr : genOf g r ≤ sg) :
    x = r := by
  cases h with
  | refl => rfl
  | step h hgen hp =>
    have := anc_gen_le hg (descReach_anc h)
    omega

theorem upReach_trans {cm : ChildMap} {r m x : ChangesetId}
    (h1 : UpReach cm r m) (h2 : UpReach cm m x) : UpReach cm r x := by
  induction h2 with
  | refl => exact h1
  | step _ hmem ih => exact UpReach.step ih hmem

theorem mem_childrenOf {cm : ChildMap} {x : ChangesetId} {c : ChangesetNode} :
    c ∈ childrenOf cm x ↔ (x, c) ∈ cm := by
  unfold childrenOf
  rw [List.mem_map]
  constructor
  · rintro ⟨pc, hpc, rfl⟩
    rcases List.mem_filter.mp hpc with ⟨hmem, hfst⟩
    have : pc.1 = x := by simpa using hfst
    rw [← this]
    exact hmem
  · intro h
    exact ⟨(x, c), List.mem_filter.mpr ⟨h, by simp⟩, rfl⟩

theorem mem_foldl_expand {α : Type} {h : α → List ChangesetNode} {ns : List α}
    {acc : Frontier} {m : ChangesetNode} :
    m ∈ ns.foldl (fun acc n => (h n).foldl (fun a c => a.insert c) acc) acc ↔
      m ∈ acc ∨ ∃ n ∈ ns, m ∈ h n := by
  induction ns generalizing acc with
  | nil => simp
  | cons n t ih =>
    simp only [List.foldl_cons, ih, mem_foldl_insert]
    constructor
    · rintro ((h' | h') | ⟨q, hq, hrest⟩)
      · exact Or.inl h'
      · exact Or.inr ⟨n, List.mem_cons_self n t, h'⟩
      · exact Or.inr ⟨q, List.mem_cons_of_mem n hq, hrest⟩
    · rintro (h' | ⟨q, hq, hrest⟩)
      · exact Or.inl (Or.inl h')
      · rcases List.mem_cons.mp hq with rfl | hq
        · exact Or.inl (Or.inr hrest)
        · exact Or.inr ⟨q, hq, hrest⟩

theorem nodup_foldl_expand {α : Type} {h : α → List ChangesetNode} {ns : List α}
    {acc : Frontier} (hd : acc.Nodup) :
    (ns.foldl (fun acc n => (h n).foldl (fun a c => a.insert c) acc) acc).Nodup := by
  induction ns generalizing acc with
  | nil => exact hd
  | cons n t ih => exact ih (nodup_foldl_insert hd)

theorem mem_foldl_parents_insert {es : List ChangesetEdges}
    {acc : Frontier} {m : ChangesetNode} :
    m ∈ es.foldl (fun acc e => e.parents.foldl (fun a p => a.insert p) acc) acc ↔
      m ∈ acc ∨ ∃ e ∈ es, m ∈ e.parents := by
  induction es generalizing acc with
  | nil => simp
  | cons e t ih =>
    simp only [List.foldl_cons, ih, mem_foldl_insert]
    constructor
    · rintro ((h | h) | ⟨q, hq, hrest⟩)
      · exact Or.inl h
      · exact Or.inr ⟨e, List.mem_cons_self e t, h⟩
      · exact Or.inr ⟨q, List.mem_cons_of_mem e hq, hrest⟩
    · rintro (h | ⟨q, hq, hrest⟩)
      · exact Or.inl (Or.inl h)
      · rcases List.mem_cons.mp hq with rfl | hq
        · exact Or.inl (Or.inr hrest)
        · exact Or.inr ⟨q, hq, hrest⟩

theorem mem_cmInsert {cm : ChildMap} {pc q : ChangesetId × ChangesetNode} :
    q ∈ cmInsert cm pc ↔ q = pc ∨ q ∈ cm := by
  unfold cmInsert
  by_cases h : pc ∈ cm
  · rw [if_pos h]
    constructor
    · exact Or.inr
    · rintro (rfl | hq)
      · exact h
      · exact hq
  · rw [if_neg h]
    exact List.mem_cons

theorem mem_parents_cm_insert {e : ChangesetEdges} {ps : List ChangesetNode}
    {acc : ChildMap} {pc : ChangesetId × ChangesetNode} :
    pc ∈ ps.foldl (fun a p => cmInsert a (p.cs_id, e.node)) acc ↔
      pc ∈ acc ∨ ∃ p ∈ ps, pc = (p.cs_id, e.node) := by
  induction ps generalizing acc with
  | nil => simp
  | cons p t ih =>
    rw [List.foldl_cons, ih, mem_cmInsert]
    constructor
    · rintro ((rfl | h) | ⟨q, hq, rfl⟩)
      · exact Or.inr ⟨p, List.mem_cons_self p t, rfl⟩
      · exact Or.inl h
      · exact Or.inr ⟨q, List.mem_cons_of_mem p hq, rfl⟩
    · rintro (h | ⟨q, hq, rfl⟩)
      · exact Or.inl (Or.inr h)
      · rcases List.mem_cons.mp hq with rfl | hq
        · exact Or.inl (Or.inl rfl)
        · exact Or.inr ⟨q, hq, rfl⟩

theorem mem_foldl_cm_insert {es : List ChangesetEdges} {acc : ChildMap}
    {pc : ChangesetId × ChangesetNode} :
    pc ∈ es.foldl (fun acc e =>
        e.parents.foldl (fun a p => cmInsert a (p.cs_id, e.node)) acc) acc ↔
      pc ∈ acc ∨ ∃ e ∈ es, ∃ p ∈ e.parents, pc = (p.cs_id, e.node) := by
  induction es generalizing acc with
  | nil => simp
  | cons e t ih =>
    rw [List.foldl_cons, ih, mem_parents_cm_insert]
    constructor
    · rintro ((h | h) | ⟨q, hq, hrest⟩)
      · exact Or.inl h
      · rcases h with ⟨p, hp, rfl⟩
        exact Or.inr ⟨e, List.mem_cons_self e t, p, hp, rfl⟩
      · exact Or.inr ⟨q, List.mem_cons_of_mem e hq, hrest⟩
    · rintro (h | ⟨q, hq, hrest⟩)
      · exact Or.inl (Or.inl h)
      · rcases List.mem_cons.mp hq with rfl | hq
        · rcases hrest with ⟨p, hp, rfl⟩
          exact Or.inl (Or.inr ⟨p, hp, rfl⟩)
        · exact Or.inr ⟨q, hq, hrest⟩

theorem fetchAllRequired_ok {g : Graph} {ns : List ChangesetNode}
    (hm : NodesMatch g ns) :
    ∃ es, fetchAllRequired g ns = .ok es ∧
      (∀ e ∈ es, ∃ n ∈ ns, fetchEdges g n.cs_id = some e ∧ e.node = n) ∧
      (∀ n ∈ ns, ∃ e ∈ es, fetchEdges g n.cs_id = some e ∧ e.node = n) := by
  induction ns with
  | nil => exact ⟨[], rfl, by simp, by simp⟩
  | cons n t ih =>
    rcases matched_iff.mp (hm n (List.mem_cons_self n t)) with ⟨e, he, hen⟩
    rcases ih (fun m hmem => hm m (List.mem_cons_of_mem n hmem)) with
      ⟨es, hes, hsound, hcompl⟩
    refine ⟨e :: es, ?_, ?_, ?_⟩
    · simp only [fetchAllRequired, he, hes, Except.map]
    · intro e' he'
      rcases List.mem_cons.mp he' with rfl | he'
      · exact ⟨n, List.mem_cons_self n t, he, hen⟩
      · rcases hsound e' he' with ⟨m, hmem, h1, h2⟩
        exact ⟨m, List.mem_cons_of_mem n hmem, h1, h2⟩
    · intro m hmem
      rcases List.mem_cons.mp hmem with rfl | hmem
      · exact ⟨e, List.mem_cons_self e es, he, hen⟩
      · rcases hcompl m hmem with ⟨e', he', h1, h2⟩
        exact ⟨e', List.mem_cons_of_mem e he', h1, h2⟩

/-- Expanding the top bucket preserves downward reachability: what was
reachable from the frontier is exactly the popped top-bucket ids plus what
is reachable from the expanded frontier. -/
theorem drF_expand {g : Graph} (hg : WellFormed g) {sg : Nat} {F : Frontier}
    (hm : NodesMatch g F) (hlt : sg < maxGen F) {es : List ChangesetEdges}
    (hsound : ∀ e ∈ es, ∃ n ∈ topBucket F, fetchEdges g n.cs_id = some e ∧ e.node = n)
    (hcompl : ∀ n ∈ topBucket F, ∃ e ∈ es, fetchEdges g n.cs_id = some e ∧ e.node = n)
    {x : ChangesetId} :
    (∃ n ∈ F, DescReach g sg n.cs_id x) ↔
      ((∃ n ∈ topBucket F, n.cs_id = x) ∨
        ∃ n ∈ es.foldl (fun acc e =>
            e.parents.foldl (fun a p => a.insert p) acc) (restBucket F),
          DescReach g sg n.cs_id x) := by
  constructor
  · rintro ⟨n, hn, hdr⟩
    induction hdr with
    | refl =>
      by_cases hT : n.generation = maxGen F
      · exact Or.inl ⟨n, mem_topBucket.mpr ⟨hn, hT⟩, rfl⟩
      · refine Or.inr ⟨n, ?_, DescReach.refl⟩
        exact mem_foldl_parents_insert.mpr (Or.inl (mem_restBucket.mpr ⟨hn, hT⟩))
    | step hdc hgen hp ih =>
      rcases ih with ⟨m, hmT, hmx⟩ | ⟨m, hmF1, hdr'⟩
      · rcases hcompl m hmT with ⟨e, heES, hfe, hen⟩
        rename_i c p
        rw [← hmx, parentIds_eq hfe] at hp
        rcases List.mem_map.mp hp with ⟨pn, hpn, hpid⟩
        refine Or.inr ⟨pn, ?_, ?_⟩
        · exact mem_foldl_parents_insert.mpr (Or.inr ⟨e, heES, hpn⟩)
        · rw [hpid]
          exact DescReach.refl
      · exact Or.inr ⟨m, hmF1, DescReach.step hdr' hgen hp⟩
  · rintro (⟨n, hnT, rfl⟩ | ⟨m, hmF1, hdr⟩)
    · exact ⟨n, (mem_topBucket.mp hnT).1, DescReach.refl⟩
    · rcases mem_foldl_parents_insert.mp hmF1 with hrest | ⟨e, heES, hpm⟩
      · exact ⟨m, (mem_restBucket.mp hrest).1, hdr⟩
      · rcases hsound e heES with ⟨n, hnT, hfe, hen⟩
        rcases mem_topBucket.mp hnT with ⟨hnF, hngen⟩
        refine ⟨n, hnF, descReach_trans ?_ hdr⟩
        refine DescReach.step DescReach.refl ?_ ?_
        · rw [matched_genOf (hm n hnF), hngen]
          exact hlt
        · rw [parentIds_eq hfe]
          exact List.mem_map_of_mem _ hpm

/-- Below or at the start generation no expansion happens: reachability
from the frontier degenerates to its own ids. -/
theorem drF_noexpand {g : Graph} (hg : WellFormed g) {sg : Nat} {F : Frontier}
    (hm : NodesMatch g F) (hle : maxGen F ≤ sg) {x : ChangesetId} :
    (∃ n ∈ F, DescReach g sg n.cs_id x) ↔
      ((∃ n ∈ topBucket F, n.cs_id = x) ∨
        ∃ n ∈ restBucket F, DescReach g sg n.cs_id x) := by
  constructor
  · rintro ⟨n, hn, hdr⟩
    have hgen : genOf g n.cs_id ≤ sg := by
      rw [matched_genOf (hm n hn)]
      exact le_trans (mem_le_maxGen hn) hle
    rcases descReach_trivial hg hdr hgen with rfl
    by_cases hT : n.generation = maxGen F
    · exact Or.inl ⟨n, mem_topBucket.mpr ⟨hn, hT⟩, rfl⟩
    · exact Or.inr ⟨n, mem_restBucket.mpr ⟨hn, hT⟩, DescReach.refl⟩
  · rintro (⟨n, hnT, rfl⟩ | ⟨n, hnR, hdr⟩)
    · exact ⟨n, (mem_topBucket.mp hnT).1, DescReach.refl⟩
    · exact ⟨n, (mem_restBucket.mp hnR).1, hdr⟩

/-- Full characterization of the discovery phase: it succeeds on matched
frontiers, the final `reached` flag records whether `s` was ever popped
(equivalently, is downward-reachable from the frontier), and the children
map accumulates exactly the reverse edges of the reachable nodes strictly
above the start generation. -/
theorem rangeDiscover_spec {g : Graph} (hg : WellFormed g)
    (s : ChangesetId) (sg : Nat) :
    ∀ {fuel : Nat} {F : Frontier} {cm : ChildMap} {r : Bool},
      NodesMatch g F → maxGen F ≤ fuel →
      ∃ cm' r', rangeDiscover g s sg fuel F cm r = .ok (cm', r') ∧
        (r' = true ↔ (r = true ∨ ∃ n ∈ F, DescReach g sg n.cs_id s)) ∧
        (∀ pc : ChangesetId × ChangesetNode, pc ∈ cm' ↔ (pc ∈ cm ∨
          (Matched g pc.2 ∧ (∃ n ∈ F, DescReach g sg n.cs_id pc.2.cs_id) ∧
            sg < pc.2.generation ∧ pc.1 ∈ parentIds g pc.2.cs_id))) := by
  intro fuel
  induction fuel with
  | zero =>
    intro F cm r hm hfuel
    have hFnil : F = [] := by
      by_contra hne
      have := maxGen_pos hg hm hne
      omega
    subst hFnil
    exact ⟨cm, r, by simp [rangeDiscover], by simp, fun pc => by simp⟩
  | succ fuel ih =>
    intro F cm r hm hfuel
    by_cases hne : F = []
    · subst hne
      exact ⟨cm, r, by simp [rangeDiscover], by simp, fun pc => by simp⟩
    · have hmT : NodesMatch g (topBucket F) :=
        fun n hn => hm n (mem_topBucket.mp hn).1
      rcases fetchAllRequired_ok hmT with ⟨es, hes, hsound, hcompl⟩
      have hsound' : ∀ e ∈ es, ∃ n ∈ topBucket F,
          fetchEdges g n.cs_id = some e ∧ e.node = n := hsound
      have hpos := maxGen_pos hg hm hne
      set r1 := (r || (topBucket F).any (fun n => n.cs_id == s)) with hr1
      set F1 := es.foldl (fun acc e =>
        e.parents.foldl (fun a p => a.insert p) acc) (restBucket F) with hF1def
      set cm1 := es.foldl (fun acc e =>
        e.parents.foldl (fun a p => cmInsert a (p.cs_id, e.node)) acc) cm with hcm1def
      have hstep : rangeDiscover g s sg (fuel + 1) F cm r =
          if sg < maxGen F then rangeDiscover g s sg fuel F1 cm1 r1
          else rangeDiscover g s sg fuel (restBucket F) cm r1 := by
        show (if F = [] then Except.ok (cm, r)
          else
            match fetchAllRequired g (topBucket F) with
            | .error err => .error err
            | .ok es =>
              if sg < maxGen F then
                rangeDiscover g s sg fuel
                  (es.foldl (fun acc e =>
                    e.parents.foldl (fun a p => a.insert p) acc) (restBucket F))
                  (es.foldl (fun acc e =>
                    e.parents.foldl (fun a p => cmInsert a (p.cs_id, e.node)) acc) cm)
                  (r || (topBucket F).any (fun n => n.cs_id == s))
              else
                rangeDiscover g s sg fuel (restBucket F) cm
                  (r || (topBucket F).any (fun n => n.cs_id == s))) = _
        rw [if_neg hne, hes]
      have hr1_iff : r1 = true ↔ (r = true ∨ ∃ n ∈ topBucket F, n.cs_id = s) := by
        rw [hr1, Bool.or_eq_true, List.any_eq_true]
        constructor
        · rintro (h | ⟨n, hn, hb⟩)
          · exact Or.inl h
          · exact Or.inr ⟨n, hn, by simpa using hb⟩
        · rintro (h | ⟨n, hn, hb⟩)
          · exact Or.inl h
          · exact Or.inr ⟨n, hn, by simpa using hb⟩
      have hrest_max : maxGen (restBucket F) ≤ maxGen F - 1 := by
        rw [maxGen_le_iff]
        intro n hn
        rcases mem_restBucket.mp hn with ⟨hnF, hne'⟩
        have := mem_le_maxGen hnF
        omega
      by_cases hlt : sg < maxGen F
      · -- expansion step
        have hmF1 : NodesMatch g F1 := by
          intro m hmem
          rcases mem_foldl_parents_insert.mp hmem with h | ⟨e, heES, hp⟩
          · exact hm m (mem_restBucket.mp h).1
          · rcases hsound e heES with ⟨n, _, hfe, _⟩
            exact wf_parent_matched hg (fetchEdges_mem hfe) hp
        have hF1_max : maxGen F1 ≤ maxGen F - 1 := by
          rw [maxGen_le_iff]
          intro m hmem
          rcases mem_foldl_parents_insert.mp hmem with h | ⟨e, heES, hp⟩
          · rcases mem_restBucket.mp h with ⟨hmF, hne'⟩
            have := mem_le_maxGen hmF
            omega
          · rcases hsound e heES with ⟨n, hnT, hfe, hen⟩
            have h1 := wf_parent_gen_lt hg (fetchEdges_mem hfe) hp
            have h2 := (mem_topBucket.mp hnT).2
            rw [hen] at h1
            omega
        rcases @ih F1 cm1 r1 hmF1 (by omega) with
          ⟨cm', r', heq, hriff, hcmiff⟩
        refine ⟨cm', r', by rw [hstep, if_pos hlt]; exact heq, ?_, ?_⟩
        · rw [hriff, hr1_iff]
          rw [drF_expand hg hm hlt hsound' hcompl]
          exact or_assoc
        · intro pc
          rw [hcmiff pc]
          rw [hcm1def, mem_foldl_cm_insert]
          rw [drF_expand hg hm hlt hsound' hcompl]
          constructor
          · rintro ((h | ⟨e, heES, p, hp, rfl⟩) | ⟨hmat, hdr, hgen, hpid⟩)
            · exact Or.inl h
            · rcases hsound e heES with ⟨n, hnT, hfe, hen⟩
              rcases mem_topBucket.mp hnT with ⟨hnF, hngen⟩
              refine Or.inr ⟨?_, ?_, ?_, ?_⟩
              · show Matched g e.node
                rw [matched_iff]
                refine ⟨e, ?_, rfl⟩
                rw [hen]
                exact hfe
              · exact Or.inl ⟨n, hnT, by rw [hen]⟩
              · show sg < e.node.generation
                rw [hen, hngen]
                exact hlt
              · show p.cs_id ∈ parentIds g e.node.cs_id
                rw [hen, parentIds_eq hfe]
                exact List.mem_map_of_mem _ hp
            · exact Or.inr ⟨hmat, Or.inr hdr, hgen, hpid⟩
          · rintro (h | ⟨hmat, hdr | hdr, hgen, hpid⟩)
            · exact Or.inl (Or.inl h)
            · rcases hdr with ⟨n, hnT, hnid⟩
              rcases hcompl n hnT with ⟨e, heES, hfe, hen⟩
              have hpc2 : pc.2 = n := by
                refine matched_unique hmat (hm n (mem_topBucket.mp hnT).1) ?_
                rw [hnid]
              rw [hpc2, parentIds_eq hfe] at hpid
              rcases List.mem_map.mp hpid with ⟨pn, hpn, hpid'⟩
              refine Or.inl (Or.inr ⟨e, heES, pn, hpn, ?_⟩)
              have hprod : pc = (pc.1, pc.2) := rfl
              rw [hprod, hpc2, hen, ← hpid']
            · exact Or.inr ⟨hmat, hdr, hgen, hpid⟩
      · -- no expansion: just drain the bucket
        have hmR : NodesMatch g (restBucket F) :=
          fun n hn => hm n (mem_restBucket.mp hn).1
        rcases @ih (restBucket F) cm r1 hmR (by omega) with
          ⟨cm', r', heq, hriff, hcmiff⟩
        refine ⟨cm', r', by rw [hstep, if_neg hlt]; exact heq, ?_, ?_⟩
        · rw [hriff, hr1_iff]
          rw [drF_noexpand hg hm (by omega)]
          exact or_assoc
        · intro pc
          rw [hcmiff pc]
          rw [drF_noexpand hg hm (by omega)]
          constructor
          · rintro (h | ⟨hmat, hdr, hgen, hpid⟩)
            · exact Or.inl h
            · exact Or.inr ⟨hmat, Or.inr hdr, hgen, hpid⟩
          · rintro (h | ⟨hmat, hdr | hdr, hgen, hpid⟩)
            · exact Or.inl h
            · exfalso
              rcases hdr with ⟨n, hnT, hnid⟩
              have hpc2 : pc.2 = n := by
                refine matched_unique hmat (hm n (mem_topBucket.mp hnT).1) ?_
                rw [hnid]
              have := (mem_topBucket.mp hnT).2
              rw [hpc2, this] at hgen
              omega
            · exact Or.inr ⟨hmat, hdr, hgen, hpid⟩

theorem rangeEmit_nil {cm : ChildMap} {fuel : Nat} : rangeEmit cm fuel [] = [] := by
  cases fuel with
  | zero => rfl
  | succ fuel => simp [rangeEmit]

/-- Popping the bottom bucket preserves upward reachability: what is
reachable from the frontier is the popped bottom ids plus what is reachable
once their recorded children are inserted. -/
theorem urF_step {cm : ChildMap} {F : Frontier} {x : ChangesetId} :
    (∃ n ∈ F, UpReach cm n.cs_id x) ↔
      ((∃ n ∈ botBucket F, n.cs_id = x) ∨
        ∃ q ∈ (botBucket F).foldl (fun acc n =>
          (childrenOf cm n.cs_id).foldl (fun a c => a.insert c) acc) (botRest F),
          UpReach cm q.cs_id x) := by
  constructor
  · rintro ⟨n, hn, hur⟩
    induction hur with
    | refl =>
      by_cases hB : n.generation = minGen F
      · exact Or.inl ⟨n, mem_botBucket.mpr ⟨hn, hB⟩, rfl⟩
      · refine Or.inr ⟨n, ?_, UpReach.refl⟩
        exact mem_foldl_expand.mpr (Or.inl (mem_botRest.mpr ⟨hn, hB⟩))
    | step hur' hmem ih =>
      rcases ih with ⟨m, hmB, hmx⟩ | ⟨q, hqF, hur''⟩
      · rename_i y c
        refine Or.inr ⟨c, ?_, UpReach.refl⟩
        refine mem_foldl_expand.mpr (Or.inr ⟨m, hmB, ?_⟩)
        rw [mem_childrenOf, hmx]
        exact hmem
      · exact Or.inr ⟨q, hqF, UpReach.step hur'' hmem⟩
  · rintro (⟨n, hnB, rfl⟩ | ⟨q, hqF, hur⟩)
    · exact ⟨n, (mem_botBucket.mp hnB).1, UpReach.refl⟩
    · rcases mem_foldl_expand.mp hqF with h | ⟨n, hnB, hc⟩
      · exact ⟨q, (mem_botRest.mp h).1, hur⟩
      · refine ⟨n, (mem_botBucket.mp hnB).1, upReach_trans ?_ hur⟩
        exact UpReach.step UpReach.refl (mem_childrenOf.mp hc)

/-- Full characterization of the emission phase: it yields exactly the
changesets upward-reachable from the frontier through the children map, in
non-decreasing generation order and without duplicates. -/
theorem rangeEmit_spec {g : Graph} (hg : WellFormed g) {cm : ChildMap}
    (hcm : ∀ pc ∈ cm, Matched g pc.2 ∧ pc.1 ∈ parentIds g pc.2.cs_id)
    {B : Nat} (hcmB : ∀ pc ∈ cm, pc.2.generation ≤ B) :
    ∀ {fuel : Nat} {F : Frontier}, NodesMatch g F → F.Nodup →
      (∀ n ∈ F, n.generation ≤ B) → B < fuel + minGen F →
      (∀ x, x ∈ rangeEmit cm fuel F ↔ ∃ n ∈ F, UpReach cm n.cs_id x) ∧
      (∀ x ∈ rangeEmit cm fuel F, minGen F ≤ genOf g x) ∧
      (rangeEmit cm fuel F).Pairwise (fun a b => genOf g a ≤ genOf g b) ∧
      (rangeEmit cm fuel F).Nodup := by
  intro fuel
  induction fuel with
  | zero =>
    intro F hm hd hB hfuel
    have hFnil : F = [] := by
      by_contra hne
      rcases exists_minGen_mem hne with ⟨n, hn, hgen⟩
      have h1 := hB n hn
      omega
    subst hFnil
    refine ⟨fun x => by simp [rangeEmit], by simp [rangeEmit], ?_, ?_⟩ <;>
      simp [rangeEmit]
  | succ fuel ih =>
    intro F hm hd hB hfuel
    by_cases hne : F = []
    · subst hne
      refine ⟨fun x => by simp [rangeEmit_nil], by simp [rangeEmit_nil], ?_, ?_⟩ <;>
        simp [rangeEmit_nil]
    · set F2 := (botBucket F).foldl (fun acc n =>
        (childrenOf cm n.cs_id).foldl (fun a c => a.insert c) acc) (botRest F)
        with hF2def
      have hstep : rangeEmit cm (fuel + 1) F =
          (botBucket F).map (fun n => n.cs_id) ++ rangeEmit cm fuel F2 := by
        show (if F = [] then [] else
          (botBucket F).map (fun n => n.cs_id) ++
            rangeEmit cm fuel
              ((botBucket F).foldl (fun acc n =>
                (childrenOf cm n.cs_id).foldl (fun a c => a.insert c) acc)
                (botRest F))) = _
        rw [if_neg hne]
      have hmB : NodesMatch g (botBucket F) :=
        fun n hn => hm n (mem_botBucket.mp hn).1
      have hm2 : NodesMatch g F2 := by
        intro q hq
        rcases mem_foldl_expand.mp hq with h | ⟨n, hnB, hc⟩
        · exact hm q (mem_botRest.mp h).1
        · exact (hcm _ (mem_childrenOf.mp hc)).1
      have hd2 : F2.Nodup := nodup_foldl_expand (List.Nodup.filter _ hd)
      have hB2 : ∀ q ∈ F2, q.generation ≤ B := by
        intro q hq
        rcases mem_foldl_expand.mp hq with h | ⟨n, hnB, hc⟩
        · exact hB q (mem_botRest.mp h).1
        · exact hcmB _ (mem_childrenOf.mp hc)
      have hgt2 : ∀ q ∈ F2, minGen F < q.generation := by
        intro q hq
        rcases mem_foldl_expand.mp hq with h | ⟨n, hnB, hc⟩
        · rcases mem_botRest.mp h with ⟨hqF, hne'⟩
          have := mem_ge_minGen hqF
          omega
        · rcases hcm _ (mem_childrenOf.mp hc) with ⟨hmatq, hpid⟩
          have hmatq' : Matched g q := hmatq
          have hpid' : n.cs_id ∈ parentIds g q.cs_id := hpid
          rcases mem_botBucket.mp hnB with ⟨hnF, hngen⟩
          have h1 := (wf_parentIds_lt hg hpid').1
          rw [matched_genOf (hm n hnF), matched_genOf hmatq', hngen] at h1
          omega
      have hbot_gen : ∀ x ∈ (botBucket F).map (fun n => n.cs_id),
          genOf g x = minGen F := by
        intro x hx
        rcases List.mem_map.mp hx with ⟨n, hn, rfl⟩
        rcases mem_botBucket.mp hn with ⟨hnF, hngen⟩
        rw [matched_genOf (hm n hnF), hngen]
      by_cases hne2 : F2 = []
      · -- the frontier drains after this bucket
        rw [hstep, hne2, rangeEmit_nil, List.append_nil]
        refine ⟨?_, ?_, ?_, ?_⟩
        · intro x
          rw [@urF_step cm F]
          rw [← hF2def, hne2]
          simp only [List.mem_map]
          constructor
          · rintro ⟨n, hn, rfl⟩
            exact Or.inl ⟨n, hn, rfl⟩
          · rintro (⟨n, hn, rfl⟩ | ⟨q, hq, _⟩)
            · exact ⟨n, hn, rfl⟩
            · simp at hq
        · intro x hx
          exact le_of_eq (hbot_gen x hx).symm
        · refine List.pairwise_of_forall_mem_list ?_
          intro a ha b hb
          rw [hbot_gen a ha, hbot_gen b hb]
        · exact nodup_map_cs_id hmB (List.Nodup.filter _ hd)
      · have hmin2 : minGen F < minGen F2 := by
          rcases exists_minGen_mem hne2 with ⟨q, hq, hgen⟩
          have := hgt2 q hq
          omega
        rcases ih hm2 hd2 hB2 (by omega) with ⟨iha, ihb, ihp, ihd⟩
        rw [hstep]
        have htail_gt : ∀ x ∈ rangeEmit cm fuel F2, minGen F < genOf g x := by
          intro x hx
          have := ihb x hx
          omega
        refine ⟨?_, ?_, ?_, ?_⟩
        · intro x
          rw [List.mem_append, @urF_step cm F, ← hF2def]
          rw [iha x]
          simp only [List.mem_map]
        · intro x hx
          rcases List.mem_append.mp hx with hx | hx
          · exact le_of_eq (hbot_gen x hx).symm
          · exact le_of_lt (htail_gt x hx)
        · rw [List.pairwise_append]
          refine ⟨?_, ihp, ?_⟩
          · refine List.pairwise_of_forall_mem_list ?_
            intro a ha b hb
            rw [hbot_gen a ha, hbot_gen b hb]
          · intro a ha b hb
            have h1 := hbot_gen a ha
            have h2 := htail_gt b hb
            omega
        · rw [List.nodup_append]
          refine ⟨nodup_map_cs_id hmB (List.Nodup.filter _ hd), ihd, ?_⟩
          intro x hx hy
          have h1 := hbot_gen x hx
          have h2 := htail_gt x hy
          omega

theorem except_bind_ok {α β : Type} (a : α) (f : α → Except Unit β) :
    (Except.ok a >>= f) = f a := rfl

/-- With the children map produced by discovery, upward reachability from
`start` is exactly "descendant of `start` and ancestor of `end`". -/
theorem upReach_iff {g : Graph} (hg : WellFormed g) {s e : ChangesetId}
    (he : Present g e) (hse : Ancestor g s e) {cm : ChildMap}
    (hcm : ∀ pc : ChangesetId × ChangesetNode, pc ∈ cm ↔
      (Matched g pc.2 ∧ DescReach g (genOf g s) e pc.2.cs_id ∧
        genOf g s < pc.2.generation ∧ pc.1 ∈ parentIds g pc.2.cs_id)) :
    ∀ x, UpReach cm s x ↔ (Ancestor g s x ∧ Ancestor g x e) := by
  intro x
  constructor
  · intro h
    induction h with
    | refl => exact ⟨Ancestor.refl s, hse⟩
    | step hur hmem ih =>
      rcases ih with ⟨hsx, hxe⟩
      rcases (hcm _).mp hmem with ⟨hmat, hdr, hgen, hpid⟩
      exact ⟨Ancestor.step hsx hpid, descReach_anc hdr⟩
  · rintro ⟨hsx, hxe⟩
    induction hsx with
    | refl => exact UpReach.refl
    | step hsp hp ih =>
      rename_i p c
      have hpe : Ancestor g p e := anc_trans (anc_parent hp) hxe
      have hce : Ancestor g c e := hxe
      have hcpres : Present g c := anc_present hg hce he
      rcases Option.isSome_iff_exists.mp hcpres with ⟨ec, hec⟩
      have hnode : (⟨c, genOf g c⟩ : ChangesetNode) = ec.node := by
        rw [genOf_eq hec, ← fetchEdges_id hec]
      have hgenlt : genOf g s < genOf g c :=
        lt_of_le_of_lt (anc_gen_le hg hsp) (wf_parentIds_lt hg hp).1
      have hmem : (p, (⟨c, genOf g c⟩ : ChangesetNode)) ∈ cm := by
        rw [hcm]
        refine ⟨?_, ?_, ?_, ?_⟩
        · show Matched g (⟨c, genOf g c⟩ : ChangesetNode)
          rw [matched_iff]
          refine ⟨ec, ?_, hnode.symm⟩
          show fetchEdges g c = some ec
          exact hec
        · show DescReach g (genOf g s) e (⟨c, genOf g c⟩ : ChangesetNode).cs_id
          exact descReach_of_anc hg hce (le_of_lt hgenlt)
        · show genOf g s < genOf g c
          exact hgenlt
        · show p ∈ parentIds g c
          exact hp
      exact UpReach.step (ih hpe) hmem

/-- Master lemma for `range_stream`: it succeeds on present endpoints of a
well-formed graph and yields exactly the changesets between `start` and
`end`, in non-decreasing generation order, without duplicates, and
non-empty exactly when `start` is an ancestor of `end`. -/
theorem range_stream_master (g : Graph) (s e : ChangesetId)
    (hg : WellFormed g) (hs : Present g s) (he : Present g e) :
    ∃ l, CommitGraph.range_stream g s e = .ok l ∧
      (l ≠ [] ↔ Ancestor g s e) ∧
      (∀ x, x ∈ l ↔ (Ancestor g s x ∧ Ancestor g x e)) ∧
      l.Pairwise (fun a b => genOf g a ≤ genOf g b) ∧
      l.Nodup := by
  rcases Option.isSome_iff_exists.mp hs with ⟨ese, hse⟩
  rcases Option.isSome_iff_exists.mp he with ⟨ee, hee⟩
  have h1 : CommitGraph.changeset_generation_required g s = .ok ese.node.generation := by
    unfold CommitGraph.changeset_generation_required CommitGraph.changeset_generation
    rw [hse]
    rfl
  have hreq : CommitGraph.changeset_generation_required g s = .ok (genOf g s) := by
    rw [h1, genOf_eq hse]
  have hF : singleFrontier g e = .ok [ee.node] := singleFrontier_ok hee
  have hmF : NodesMatch g [ee.node] := singleFrontier_nodesMatch hee
  rcases @rangeDiscover_spec g hg s (genOf g s) (maxGen [ee.node] + 1)
      [ee.node] [] false hmF (by omega) with
    ⟨cm', r', hdeq, hriff, hcmiff⟩
  have heid : ee.node.cs_id = e := fetchEdges_id hee
  have hriff' : r' = true ↔ DescReach g (genOf g s) e s := by
    rw [hriff]
    constructor
    · rintro (h | ⟨n, hn, hdr⟩)
      · exact absurd h (by simp)
      · rcases List.mem_singleton.mp hn with rfl
        rw [heid] at hdr
        exact hdr
    · intro h
      refine Or.inr ⟨ee.node, List.mem_singleton.mpr rfl, ?_⟩
      rw [heid]
      exact h
  have hcmiff' : ∀ pc : ChangesetId × ChangesetNode, pc ∈ cm' ↔
      (Matched g pc.2 ∧ DescReach g (genOf g s) e pc.2.cs_id ∧
        genOf g s < pc.2.generation ∧ pc.1 ∈ parentIds g pc.2.cs_id) := by
    intro pc
    rw [hcmiff pc]
    constructor
    · rintro (h | ⟨hmat, ⟨n, hn, hdr⟩, hgen, hpid⟩)
      · simp at h
      · rcases List.mem_singleton.mp hn with rfl
        rw [heid] at hdr
        exact ⟨hmat, hdr, hgen, hpid⟩
    · rintro ⟨hmat, hdr, hgen, hpid⟩
      refine Or.inr ⟨hmat, ⟨ee.node, List.mem_singleton.mpr rfl, ?_⟩, hgen, hpid⟩
      rw [heid]
      exact hdr
  have hrs : CommitGraph.range_stream g s e =
      (if r' = true then
        .ok (rangeEmit cm' (genOf g e + 1) [⟨s, genOf g s⟩])
      else .ok []) := by
    unfold CommitGraph.range_stream
    rw [hreq, hF]
    simp only [except_bind_ok]
    rw [hdeq]
    simp only [except_bind_ok]
  by_cases hr : r' = true
  · -- start was reached: the stream is the upward emission
    have hdr : DescReach g (genOf g s) e s := hriff'.mp hr
    have hAncse : Ancestor g s e := descReach_anc hdr
    have hcm_sound : ∀ pc ∈ cm', Matched g pc.2 ∧ pc.1 ∈ parentIds g pc.2.cs_id := by
      intro pc hpc
      rcases (hcmiff' pc).mp hpc with ⟨hmat, _, _, hpid⟩
      exact ⟨hmat, hpid⟩
    have hcmB : ∀ pc ∈ cm', pc.2.generation ≤ genOf g e := by
      intro pc hpc
      rcases (hcmiff' pc).mp hpc with ⟨hmat, hdr', _, _⟩
      have := anc_gen_le hg (descReach_anc hdr')
      rw [matched_genOf hmat] at this
      exact this
    have hsnode : Matched g (⟨s, genOf g s⟩ : ChangesetNode) := by
      rw [matched_iff]
      refine ⟨ese, hse, ?_⟩
      rw [genOf_eq hse, ← fetchEdges_id hse]
    have hmFs : NodesMatch g [(⟨s, genOf g s⟩ : ChangesetNode)] := by
      intro n hn
      rcases List.mem_singleton.mp hn with rfl
      exact hsnode
    have hBs : ∀ n ∈ [(⟨s, genOf g s⟩ : ChangesetNode)],
        n.generation ≤ genOf g e := by
      intro n hn
      rcases List.mem_singleton.mp hn with rfl
      exact anc_gen_le hg hAncse
    rcases @rangeEmit_spec g hg cm' hcm_sound (genOf g e) hcmB
        (genOf g e + 1) [⟨s, genOf g s⟩] hmFs
        (List.nodup_singleton _) hBs (by simp [minGen]; omega) with
      ⟨iha, ihb, ihp, ihd⟩
    have hup := upReach_iff hg he hAncse hcmiff'
    have hset : ∀ x, x ∈ rangeEmit cm' (genOf g e + 1) [⟨s, genOf g s⟩] ↔
        (Ancestor g s x ∧ Ancestor g x e) := by
      intro x
      rw [iha x, ← hup x]
      constructor
      · rintro ⟨n, hn, h⟩
        rcases List.mem_singleton.mp hn with rfl
        exact h
      · intro h
        exact ⟨_, List.mem_singleton.mpr rfl, h⟩
    refine ⟨rangeEmit cm' (genOf g e + 1) [⟨s, genOf g s⟩],
      by rw [hrs, if_pos hr], ?_, hset, ihp, ihd⟩
    constructor
    · intro _
      exact hAncse
    · intro _
      intro hnil
      have hsmem : s ∈ rangeEmit cm' (genOf g e + 1) [⟨s, genOf g s⟩] :=
        (hset s).mpr ⟨Ancestor.refl s, hAncse⟩
      rw [hnil] at hsmem
      simp at hsmem
  · -- start was not reached: the stream is empty and s is not an ancestor
    have hnoanc : ¬Ancestor g s e := by
      intro hAnc
      exact hr (hriff'.mpr (descReach_of_anc hg hAnc le_rfl))
    refine ⟨[], by rw [hrs, if_neg hr], ?_, ?_, List.Pairwise.nil, List.nodup_nil⟩
    · simp only [ne_eq, not_true_eq_false, false_iff]
      simpa using hnoanc
    · intro x
      simp only [List.not_mem_nil, false_iff]
      rintro ⟨hsx, hxe⟩
      exact hnoanc (anc_trans hsx hxe)

/-- **C2.** For every well-formed graph and present changesets `s` and `e`,
`range_stream(s, e)` (lib.rs lines 325-399) yields a non-empty stream iff
`is_ancestor(s, e)`; every emitted `x` satisfies `is_ancestor(s, x)` and
`is_ancestor(x, e)`; every changeset satisfying both is emitted; emission
order is non-decreasing in generation; and no changeset is emitted
twice. -/
theorem range_stream_spec (g : Graph) (s e : ChangesetId) (hg : WellFormed g)
    (hs : Present g s) (he : Present g e) :
    ∃ l, CommitGraph.range_stream g s e = .ok l ∧
      (l ≠ [] ↔ Ancestor g s e) ∧
      (∀ x ∈ l, CommitGraph.is_ancestor g s x = .ok true ∧
        CommitGraph.is_ancestor g x e = .ok true) ∧
      (∀ x, Ancestor g s x → Ancestor g x e → x ∈ l) ∧
      l.Pairwise (fun a b => genOf g a ≤ genOf g b) ∧
      l.Nodup := by
  rcases range_stream_master g s e hg hs he with ⟨l, heq, hne, hset, hp, hd⟩
  refine ⟨l, heq, hne, ?_, ?_, hp, hd⟩
  · intro x hx
    rcases (hset x).mp hx with ⟨hsx, hxe⟩
    have hxpres : Present g x := anc_present hg hxe he
    exact ⟨(is_ancestor_true_iff hg hs hxpres).mpr hsx,
      (is_ancestor_true_iff hg hxpres he).mpr hxe⟩
  · intro x h1 h2
    exact (hset x).mpr ⟨h1, h2⟩

/-- Witness for C2 on the two-changeset example graph. -/
theorem range_stream_spec_witness :
    (WellFormed exGraph ∧ Present exGraph 1 ∧ Present exGraph 2) ∧
    (∃ l, CommitGraph.range_stream exGraph 1 2 = .ok l ∧
      (l ≠ [] ↔ Ancestor exGraph 1 2) ∧
      (∀ x ∈ l, CommitGraph.is_ancestor exGraph 1 x = .ok true ∧
        CommitGraph.is_ancestor exGraph x 2 = .ok true) ∧
      (∀ x, Ancestor exGraph 1 x → Ancestor exGraph x 2 → x ∈ l) ∧
      l.Pairwise (fun a b => genOf exGraph a ≤ genOf exGraph b) ∧
      l.Nodup) :=
  ⟨⟨by decide, by decide, by decide⟩,
    range_stream_spec exGraph 1 2 (by decide) (by decide) (by decide)⟩

/-- **C8.** For every well-formed graph and every present changeset `c`,
`range_stream(c, c)` yields exactly the single changeset `c` (lib.rs lines
325-399): with start equal to end the stream emits `{start}` and nothing
else. -/
theorem range_stream_self (g : Graph) (c : ChangesetId) (hg : WellFormed g)
    (hc : Present g c) : CommitGraph.range_stream g c c = .ok [c] := by
  rcases range_stream_master g c c hg hc hc with ⟨l, heq, _, hset, _, hd⟩
  have hmem : ∀ x, x ∈ l ↔ x = c := by
    intro x
    rw [hset x]
    constructor
    · rintro ⟨h1, h2⟩
      exact anc_antisymm hg h2 h1
    · rintro rfl
      exact ⟨Ancestor.refl _, Ancestor.refl _⟩
  have hc_mem : c ∈ l := (hmem c).mpr rfl
  cases l with
  | nil => simp at hc_mem
  | cons a t =>
    have ha : a = c := (hmem a).mp (List.mem_cons_self a t)
    cases t with
    | nil =>
      rw [heq, ha]
    | cons b u =>
      exfalso
      have hb : b = c := (hmem b).mp (by simp)
      rcases List.nodup_cons.mp hd with ⟨hna, _⟩
      rw [ha, hb] at hna
      simp at hna

/-- Witness for C8. -/
theorem range_stream_self_witness :
    (WellFormed exGraph ∧ Present exGraph 2) ∧
      CommitGraph.range_stream exGraph 2 2 = .ok [2] :=
  ⟨⟨by decide, by decide⟩, range_stream_self exGraph 2 (by decide) (by decide)⟩

/-- **C10.** Once `range_stream` returns `Ok` with a stream, consuming the
stream can never produce an error: all storage fetching (the `_required`
generation lookup, the frontier build, and the whole discovery loop with
its `fetch_many_edges_required` calls) happens before the function
returns, and the returned stream is exactly `rangeEmit` driven from the
in-memory children map — a function whose type takes no graph/storage
argument and which is total, in contrast to `ancestors_difference_stream`
whose chunks re-consult storage between polls. -/
theorem range_stream_emission_pure (g : Graph) (s e : ChangesetId)
    (l : List ChangesetId) (h : CommitGraph.range_stream g s e = .ok l) :
    ∃ sg F cm reached,
      CommitGraph.changeset_generation_required g s = .ok sg ∧
      singleFrontier g e = .ok F ∧
      rangeDiscover g s sg (maxGen F + 1) F [] false = .ok (cm, reached) ∧
      l = (if reached then rangeEmit cm (genOf g e + 1) [⟨s, sg⟩] else []) := by
  unfold CommitGraph.range_stream at h
  cases h1 : CommitGraph.changeset_generation_required g s with
  | error err =>
    rw [h1] at h
    exact absurd (show (Except.error err : Except Unit (List ChangesetId)) = .ok l from h)
      (by simp)
  | ok sg =>
    rw [h1] at h
    cases h2 : singleFrontier g e with
    | error err =>
      rw [h2] at h
      exact absurd (show (Except.error err : Except Unit (List ChangesetId)) = .ok l from h)
        (by simp)
    | ok F =>
      rw [h2] at h
      replace h : (rangeDiscover g s sg (maxGen F + 1) F [] false >>= fun dres =>
          if dres.2 then
            Except.ok (rangeEmit dres.1 (genOf g e + 1) [⟨s, sg⟩])
          else Except.ok []) = Except.ok l := h
      cases h3 : rangeDiscover g s sg (maxGen F + 1) F [] false with
      | error err =>
        rw [h3] at h
        exact absurd (show (Except.error err : Except Unit (List ChangesetId)) = .ok l from h)
          (by simp)
      | ok dres =>
        rw [h3] at h
        replace h : (if dres.2 then
            Except.ok (rangeEmit dres.1 (genOf g e + 1) [⟨s, sg⟩])
          else (Except.ok [] : Except Unit (List ChangesetId))) = Except.ok l := h
        refine ⟨sg, F, dres.1, dres.2, rfl, rfl, by rw [h3], ?_⟩
        by_cases hb : dres.2 = true
        · rw [if_pos hb] at h
          rw [if_pos hb]
          exact (Except.ok.inj h).symm
        · rw [if_neg hb] at h
          rw [if_neg hb]
          exact (Except.ok.inj h).symm

/-- Witness for C10 on the two-changeset example graph. -/
theorem range_stream_emission_pure_witness :
    CommitGraph.range_stream exGraph 1 2 = .ok [1, 2] ∧
    (∃ sg F cm reached,
      CommitGraph.changeset_generation_required exGraph 1 = .ok sg ∧
      singleFrontier exGraph 2 = .ok F ∧
      rangeDiscover exGraph 1 sg (maxGen F + 1) F [] false = .ok (cm, reached) ∧
      [1, 2] = (if reached then rangeEmit cm (genOf exGraph 2 + 1) [⟨1, sg⟩] else [])) :=
  ⟨by rfl, range_stream_emission_pure exGraph 1 2 [1, 2] (by rfl)⟩

theorem mem_highestGenIntersection {U V : Frontier} {x : ChangesetId} :
    x ∈ highestGenIntersection U V ↔
      (maxGen U = maxGen V ∧
        ∃ n, n ∈ topBucket U ∧ n ∈ topBucket V ∧ n.cs_id = x) := by
  unfold highestGenIntersection
  by_cases h : maxGen U = maxGen V
  · rw [if_pos h]
    rw [List.mem_map]
    constructor
    · rintro ⟨n, hn, rfl⟩
      rcases List.mem_filter.mp hn with ⟨hnU, hnV⟩
      exact ⟨h, n, hnU, of_decide_eq_true hnV, rfl⟩
    · rintro ⟨_, n, hnU, hnV, rfl⟩
      exact ⟨n, List.mem_filter.mpr ⟨hnU, decide_eq_true hnV⟩, rfl⟩
  · rw [if_neg h]
    simp [h]

theorem ancF_gen_le {g : Graph} (hg : WellFormed g) {F : Frontier}
    (hm : NodesMatch g F) {x : ChangesetId} (h : AncF g F x) :
    genOf g x ≤ maxGen F := by
  rcases h with ⟨n, hn, hanc⟩
  have h1 := anc_gen_le hg hanc
  have h2 := matched_genOf (hm n hn)
  have h3 := mem_le_maxGen hn
  omega

/-- Master invariant proof for the `common_base` loop: provided the two
frontiers jointly characterize the common ancestors of `u` and `v`, the
loop returns a sorted duplicate-free list of common ancestors of maximal
generation, empty exactly when there are none. -/
theorem common_base_loop_spec {g : Graph} (hg : WellFormed g) {u v : ChangesetId} :
    ∀ {fuel : Nat} {U V : Frontier},
      NodesMatch g U → U.Nodup → NodesMatch g V → maxGen U + 1 ≤ fuel →
      (∀ x, (AncF g U x ∧ AncF g V x) ↔ (Ancestor g x u ∧ Ancestor g x v)) →
      ∃ l, common_base_loop g fuel U V = .ok l ∧
        l.Pairwise (· < ·) ∧
        (∀ c ∈ l, Ancestor g c u ∧ Ancestor g c v) ∧
        (∀ c ∈ l, ∀ d, Ancestor g d u → Ancestor g d v → genOf g d ≤ genOf g c) ∧
        (l = [] ↔ ¬∃ c, Ancestor g c u ∧ Ancestor g c v) := by
  intro fuel
  induction fuel with
  | zero => intro U V _ _ _ hfuel _; omega
  | succ fuel ih =>
    intro U V hmU hdU hmV hfuel hInv
    by_cases hU : U = []
    · subst hU
      refine ⟨[], by unfold common_base_loop; rw [if_pos rfl],
        List.Pairwise.nil, by simp, by simp, ?_⟩
      constructor
      · rintro - ⟨c, hc⟩
        rcases (hInv c).mpr hc with ⟨⟨n, hn, -⟩, -⟩
        simp at hn
      · intro _
        rfl
    · have hmV1 : NodesMatch g (lowerFrontier g (maxGen U) V) :=
        lowerFrontier_nodesMatch hg hmV
      have hCAbound : ∀ x, Ancestor g x u → Ancestor g x v →
          genOf g x ≤ maxGen U := by
        intro x h1 h2
        exact ancF_gen_le hg hmU ((hInv x).mpr ⟨h1, h2⟩).1
      have hAncV1 : ∀ x, AncF g (lowerFrontier g (maxGen U) V) x ↔
          (AncF g V x ∧ genOf g x ≤ maxGen U) :=
        fun x => ancF_lowerFrontier hg hmV
      by_cases hint : highestGenIntersection U (lowerFrontier g (maxGen U) V) = []
      · -- intersection empty: no common ancestor sits at the top generation
        have hCAtop : ∀ x, Ancestor g x u → Ancestor g x v →
            genOf g x ≠ maxGen U := by
          intro x h1 h2 hgen
          rcases (hInv x).mpr ⟨h1, h2⟩ with ⟨hAU, hAV⟩
          have hAV1 : AncF g (lowerFrontier g (maxGen U) V) x :=
            (hAncV1 x).mpr ⟨hAV, le_of_eq hgen⟩
          have hxU : (⟨x, maxGen U⟩ : ChangesetNode) ∈ U :=
            ancF_top_mem hg hmU hAU hgen
          have hmaxV1 : maxGen (lowerFrontier g (maxGen U) V) = maxGen U := by
            have hle := @lowerFrontier_maxGen_le g hg (maxGen U) V hmV
            have hge := ancF_gen_le hg hmV1 hAV1
            omega
          have hxV1 : (⟨x, maxGen U⟩ : ChangesetNode) ∈
              lowerFrontier g (maxGen U) V := by
            have := ancF_top_mem hg hmV1 hAV1 (by omega)
            rw [hmaxV1] at this
            exact this
          have hmem : x ∈ highestGenIntersection U (lowerFrontier g (maxGen U) V) := by
            rw [mem_highestGenIntersection]
            refine ⟨hmaxV1.symm, ⟨x, maxGen U⟩, mem_topBucket.mpr ⟨hxU, rfl⟩, ?_, rfl⟩
            rw [mem_topBucket, hmaxV1]
            exact ⟨hxV1, rfl⟩
          rw [hint] at hmem
          simp at hmem
        -- the slow path re-establishes the invariant
        have hInv3 : ∀ x, (AncF g (lowerStep g U) x ∧
            AncF g (lowerFrontier g (maxGen U) V) x) ↔
            (Ancestor g x u ∧ Ancestor g x v) := by
          intro x
          rw [ancF_lowerStep hg hmU, hAncV1 x]
          constructor
          · rintro ⟨⟨hAU, -⟩, hAV, -⟩
            exact (hInv x).mp ⟨hAU, hAV⟩
          · intro hCA
            have hb := hCAbound x hCA.1 hCA.2
            have hne := hCAtop x hCA.1 hCA.2
            rcases (hInv x).mpr hCA with ⟨hAU, hAV⟩
            exact ⟨⟨hAU, by omega⟩, hAV, by omega⟩
        have hlt := lowerStep_maxGen_lt hg hmU hU
        have hslow := ih (nodesMatch_lowerStep hg hmU) (nodup_lowerStep hdU)
          hmV1 (by omega) hInv3
        have htbne := topBucket_ne_nil hU
        cases htb : (topBucket U).head? with
        | none =>
          exfalso
          cases h' : topBucket U with
          | nil => exact htbne h'
          | cons a t =>
            rw [h'] at htb
            simp at htb
        | some n =>
          have hnT : n ∈ topBucket U := by
            cases h' : topBucket U with
            | nil => exact absurd h' htbne
            | cons a t =>
              rw [h'] at htb
              simp only [List.head?_cons, Option.some.injEq] at htb
              rw [← htb]
              exact List.mem_cons_self a t
          rcases matched_iff.mp (hmU n (mem_topBucket.mp hnT).1) with ⟨e, he, hen⟩
          have hngen : n.generation = maxGen U := (mem_topBucket.mp hnT).2
          cases hskew : e.skip_tree_skew_ancestor with
          | none =>
            rcases hslow with ⟨l, hleq, hp1, hp2, hp3, hp4⟩
            refine ⟨l, ?_, hp1, hp2, hp3, hp4⟩
            unfold common_base_loop
            rw [if_neg hU, if_pos hint]
            simp only [htb, he, hskew]
            exact hleq
          | some a =>
            rcases wf_skew hg (fetchEdges_mem he) hskew with ⟨hmata, halt⟩
            have hagen_lt : a.generation < maxGen U := by
              rw [hen, hngen] at halt
              exact halt
            have hapos : 1 ≤ a.generation := by
              have := wf_genOf_pos hg (matched_present hmata)
              rw [matched_genOf hmata] at this
              exact this
            by_cases hdisj : ∀ m ∈ lowerFrontier g a.generation U,
                m ∉ lowerFrontier g a.generation (lowerFrontier g (maxGen U) V)
            · -- safe fast jump
              have hCAlow : ∀ x, Ancestor g x u → Ancestor g x v →
                  genOf g x ≤ a.generation := by
                intro x h1 h2
                by_contra hgt
                push_neg at hgt
                rcases (hInv x).mpr ⟨h1, h2⟩ with ⟨hAU, hAV⟩
                have hAV1 : AncF g (lowerFrontier g (maxGen U) V) x :=
                  (hAncV1 x).mpr ⟨hAV, hCAbound x h1 h2⟩
                have hU2 : firstBelow g a.generation ⟨x, genOf g x⟩ ∈
                    lowerFrontier g a.generation U :=
                  firstBelow_mem_lower hg hapos hmU (by omega) hAU hgt
                have hV2 : firstBelow g a.generation ⟨x, genOf g x⟩ ∈
                    lowerFrontier g a.generation (lowerFrontier g (maxGen U) V) :=
                  firstBelow_mem_lower hg hapos hmV1 (by omega) hAV1 hgt
                exact hdisj _ hU2 hV2
              have hInv2 : ∀ x, (AncF g (lowerFrontier g a.generation U) x ∧
                  AncF g (lowerFrontier g a.generation
                    (lowerFrontier g (maxGen U) V)) x) ↔
                  (Ancestor g x u ∧ Ancestor g x v) := by
                intro x
                rw [ancF_lowerFrontier hg hmU, ancF_lowerFrontier hg hmV1,
                  hAncV1 x]
                constructor
                · rintro ⟨⟨hAU, -⟩, ⟨hAV, -⟩, -⟩
                  exact (hInv x).mp ⟨hAU, hAV⟩
                · intro hCA
                  have hle := hCAlow x hCA.1 hCA.2
                  rcases (hInv x).mpr hCA with ⟨hAU, hAV⟩
                  exact ⟨⟨hAU, hle⟩, ⟨hAV, by omega⟩, hle⟩
              have hmaxU2 := @lowerFrontier_maxGen_le g hg a.generation U hmU
              rcases ih (lowerFrontier_nodesMatch hg hmU)
                  (lowerFrontier_nodup hdU)
                  (lowerFrontier_nodesMatch hg hmV1) (by omega) hInv2 with
                ⟨l, hleq, hp1, hp2, hp3, hp4⟩
              refine ⟨l, ?_, hp1, hp2, hp3, hp4⟩
              unfold common_base_loop
              rw [if_neg hU, if_pos hint]
              simp only [htb, he, hskew]
              rw [if_pos hdisj]
              exact hleq
            · -- unsafe jump: fall back to the slow path
              rcases hslow with ⟨l, hleq, hp1, hp2, hp3, hp4⟩
              refine ⟨l, ?_, hp1, hp2, hp3, hp4⟩
              unfold common_base_loop
              rw [if_neg hU, if_pos hint]
              simp only [htb, he, hskew]
              rw [if_neg hdisj]
              exact hleq
      · -- non-empty intersection: return it, sorted
        have hintprops : ∀ x ∈ highestGenIntersection U (lowerFrontier g (maxGen U) V),
            (Ancestor g x u ∧ Ancestor g x v) ∧ genOf g x = maxGen U := by
          intro x hx
          rcases mem_highestGenIntersection.mp hx with ⟨hmaxeq, n, hnU, hnV1, rfl⟩
          rcases mem_topBucket.mp hnU with ⟨hnUF, hngen⟩
          rcases mem_topBucket.mp hnV1 with ⟨hnV1F, -⟩
          have hAU : AncF g U n.cs_id := ⟨n, hnUF, Ancestor.refl _⟩
          have hAV1 : AncF g (lowerFrontier g (maxGen U) V) n.cs_id :=
            ⟨n, hnV1F, Ancestor.refl _⟩
          have hAV : AncF g V n.cs_id := ((hAncV1 _).mp hAV1).1
          refine ⟨(hInv _).mp ⟨hAU, hAV⟩, ?_⟩
          rw [matched_genOf (hmU n hnUF), hngen]
        have hdint : (highestGenIntersection U (lowerFrontier g (maxGen U) V)).Nodup := by
          unfold highestGenIntersection
          by_cases h : maxGen U = maxGen (lowerFrontier g (maxGen U) V)
          · rw [if_pos h]
            refine nodup_map_cs_id (g := g) ?_ ?_
            · intro m hm
              exact hmU m (mem_topBucket.mp (List.mem_filter.mp hm).1).1
            · exact List.Nodup.filter _ (List.Nodup.filter _ hdU)
          · rw [if_neg h]
            exact List.nodup_nil
        set inter := highestGenIntersection U (lowerFrontier g (maxGen U) V) with hinterdef
        have hsorted : (inter.insertionSort (· ≤ ·)).Sorted (· ≤ ·) :=
          List.sorted_insertionSort (· ≤ ·) inter
        have hperm : List.Perm (inter.insertionSort (· ≤ ·)) inter :=
          List.perm_insertionSort (· ≤ ·) inter
        have hdl : (inter.insertionSort (· ≤ ·)).Nodup :=
          (hperm.nodup_iff).mpr hdint
        have hmeml : ∀ x, x ∈ inter.insertionSort (· ≤ ·) ↔ x ∈ inter :=
          fun x => hperm.mem_iff
        refine ⟨inter.insertionSort (· ≤ ·), ?_, ?_, ?_, ?_, ?_⟩
        · unfold common_base_loop
          rw [if_neg hU, if_neg hint]
        · exact List.Sorted.lt_of_le hsorted hdl
        · intro c hc
          exact (hintprops c ((hmeml c).mp hc)).1
        · intro c hc d h1 h2
          rw [(hintprops c ((hmeml c).mp hc)).2]
          exact hCAbound d h1 h2
        · rcases List.exists_mem_of_ne_nil inter hint with ⟨x, hx⟩
          have hxl : x ∈ inter.insertionSort (· ≤ ·) := (hmeml x).mpr hx
          constructor
          · intro h
            rw [h] at hxl
            simp at hxl
          · intro h
            exact absurd ⟨x, (hintprops x hx).1⟩ h

/-- C1: for every well-formed graph and present changesets u and v,
`common_base(u, v)` returns the set of greatest common ancestors: the list is
sorted strictly ascending by ChangesetId (hence duplicate-free), every element
c satisfies `is_ancestor(c, u)` and `is_ancestor(c, v)`, no element has a
strict descendant that is also a common ancestor of u and v, and the result
is empty exactly when u and v share no common ancestor. -/
theorem common_base_spec {g : Graph} (hg : WellFormed g) {u v : ChangesetId}
    (hu : Present g u) (hv : Present g v) :
    ∃ l, CommitGraph.common_base g u v = .ok l ∧
      l.Pairwise (· < ·) ∧
      (∀ c ∈ l, CommitGraph.is_ancestor g c u = .ok true ∧
        CommitGraph.is_ancestor g c v = .ok true) ∧
      (∀ c ∈ l, ∀ d, Ancestor g c d → c ≠ d →
        ¬(Ancestor g d u ∧ Ancestor g d v)) ∧
      (l = [] ↔ ¬∃ c, Ancestor g c u ∧ Ancestor g c v) := by
  rcases Option.isSome_iff_exists.mp hu with ⟨eu, heu⟩
  rcases Option.isSome_iff_exists.mp hv with ⟨ev, hev⟩
  have hU := singleFrontier_ok heu
  have hV := singleFrontier_ok hev
  have hAu : ∀ x, AncF g [eu.node] x ↔ Ancestor g x u := by
    intro x
    constructor
    · rintro ⟨n, hn, hanc⟩
      rcases List.mem_singleton.mp hn with rfl
      rw [fetchEdges_id heu] at hanc
      exact hanc
    · intro h
      exact ⟨eu.node, List.mem_singleton.mpr rfl, by rw [fetchEdges_id heu]; exact h⟩
  have hAv : ∀ x, AncF g [ev.node] x ↔ Ancestor g x v := by
    intro x
    constructor
    · rintro ⟨n, hn, hanc⟩
      rcases List.mem_singleton.mp hn with rfl
      rw [fetchEdges_id hev] at hanc
      exact hanc
    · intro h
      exact ⟨ev.node, List.mem_singleton.mpr rfl, by rw [fetchEdges_id hev]; exact h⟩
  rcases common_base_loop_spec hg (singleFrontier_nodesMatch heu)
      (List.nodup_singleton _) (singleFrontier_nodesMatch hev) le_rfl
      (fun x => by rw [hAu x, hAv x]) with ⟨l, hloop, hp1, hp2, hp3, hp4⟩
  refine ⟨l, ?_, hp1, ?_, ?_, hp4⟩
  · unfold CommitGraph.common_base
    rw [hU, except_bind_ok, hV, except_bind_ok]
    exact hloop
  · intro c hc
    have hca := hp2 c hc
    have hpc : Present g c := anc_present hg hca.1 hu
    exact ⟨(is_ancestor_true_iff hg hpc hu).mpr hca.1,
      (is_ancestor_true_iff hg hpc hv).mpr hca.2⟩
  · intro c hc d hcd hne hdca
    have h1 := hp3 c hc d hdca.1 hdca.2
    have h2 := anc_gen_lt hg hcd hne
    omega

/-- Witness for C1: on the two-node example graph the hypotheses hold
concretely for u = 2, v = 1. -/
theorem common_base_spec_witness :
    WellFormed exGraph ∧ Present exGraph 2 ∧ Present exGraph 1 ∧
    ∃ l, CommitGraph.common_base exGraph 2 1 = .ok l ∧
      l.Pairwise (· < ·) ∧
      (∀ c ∈ l, CommitGraph.is_ancestor exGraph c 2 = .ok true ∧
        CommitGraph.is_ancestor exGraph c 1 = .ok true) ∧
      (∀ c ∈ l, ∀ d, Ancestor exGraph c d → c ≠ d →
        ¬(Ancestor exGraph d 2 ∧ Ancestor exGraph d 1)) ∧
      (l = [] ↔ ¬∃ c, Ancestor exGraph c 2 ∧ Ancestor exGraph c 1) :=
  ⟨by decide, by decide, by decide,
    common_base_spec (by decide) (by decide) (by decide)⟩
